import Mathlib

/-! ## Verification of the sequoia content-publishing pipeline

Shallow embedding of the core of the `sequoia` CLI (a Markdown-to-ATProto
publishing tool) and proofs about it.  The embedding is translated from the
TypeScript source:

* `packages/cli/src/lib/markdown.ts` — frontmatter parsing, slug/path
  resolution, content scanning, frontmatter rewriting;
* `packages/cli/src/lib/config.ts`   — state-ledger load/save;
* `packages/cli/src/commands/publish.ts` — the publish reconciler;
* `packages/cli/src/commands/sync.ts`    — the remote sync reconciler;
* the ATProto client library (`listDocuments`, `createBlueskyPost`,
  `truncateToGraphemes`, …).

External primitives (SHA-256 via `crypto.subtle`, `Date` parsing,
`Intl.Segmenter` grapheme segmentation, `minimatch` glob matching, the
network) are modelled as parameters/oracles; everything the TypeScript
code computes itself is translated concretely.  File contents are modelled
as `List Char`; for the Bluesky text budget a string is modelled as the
list of its grapheme clusters (`Intl.Segmenter` output), one element per
cluster, so grapheme counting is `List.length` and cluster-respecting
truncation is `List.take`.
-/

namespace Sequoia

/-! ## Generic list/string helpers mirroring JS string primitives -/

/-- JS whitespace test restricted to the ASCII range (enough for `trim`,
`\s` in the regexes of the source, and the split characters that occur). -/
def isJsWs (c : Char) : Bool :=
  c = ' ' || c = '\t' || c = '\n' || c = '\r' || c = '\x0b' || c = '\x0c'

/-- JS `a.startsWith(b)` on character lists: `startsWithL pat s` is true when
`pat` is an initial segment of `s`. -/
def startsWithL : List Char → List Char → Bool
  | [], _ => true
  | _ :: _, [] => false
  | a :: as, b :: bs => a = b && startsWithL as bs

/-- JS `a.endsWith(b)` on character lists. -/
def endsWithL (pat s : List Char) : Bool :=
  startsWithL pat.reverse s.reverse

/-- JS `String.prototype.trim`. -/
def jsTrim (s : List Char) : List Char :=
  ((s.dropWhile isJsWs).reverse.dropWhile isJsWs).reverse

/-- First occurrence of character `sep` splits the line into the part
before and the part after (`line.indexOf(sep)` plus the two slices);
`none` when `sep` does not occur. -/
def splitAtFirstChar (sep : Char) : List Char → Option (List Char × List Char)
  | [] => none
  | c :: rest =>
    if c = sep then some ([], rest)
    else match splitAtFirstChar sep rest with
      | some (a, b) => some (c :: a, b)
      | none => none

/-- Split at the first occurrence of the (contiguous) pattern `sep`,
returning the parts before and after it; `none` when `sep` is not an
infix.  This is the behaviour of the lazy group in the frontmatter
regex `^(---|\+\+\+|\*\*\*)\n([\s\S]*?)\n\1\n([\s\S]*)$`. -/
def splitOnFirst (sep : List Char) : List Char → Option (List Char × List Char)
  | [] => if startsWithL sep [] then some ([], []) else none
  | c :: rest =>
    if startsWithL sep (c :: rest) then some ([], (c :: rest).drop sep.length)
    else match splitOnFirst sep rest with
      | some (a, b) => some (c :: a, b)
      | none => none

theorem startsWithL_iff_eq_append (pat s : List Char) :
    startsWithL pat s = true ↔ ∃ t, s = pat ++ t := by
  induction pat generalizing s with
  | nil => simp [startsWithL]
  | cons a as ih =>
    cases s with
    | nil =>
      simp only [startsWithL]
      constructor
      · intro h; cases h
      · rintro ⟨t, ht⟩; cases ht
    | cons b bs =>
      simp only [startsWithL, Bool.and_eq_true, decide_eq_true_eq, ih]
      constructor
      · rintro ⟨rfl, t, rfl⟩; exact ⟨t, rfl⟩
      · rintro ⟨t, ht⟩
        injection ht with h1 h2
        exact ⟨h1.symm, t, h2⟩

theorem startsWithL_append_self (pat t : List Char) :
    startsWithL pat (pat ++ t) = true :=
  (startsWithL_iff_eq_append pat _).mpr ⟨t, rfl⟩

theorem splitOnFirst_sound (sep s a b : List Char)
    (h : splitOnFirst sep s = some (a, b)) : s = a ++ sep ++ b := by
  induction s generalizing a b with
  | nil =>
    simp only [splitOnFirst] at h
    split at h
    · rename_i hp
      obtain ⟨t, ht⟩ := (startsWithL_iff_eq_append sep []).mp hp
      rcases List.append_eq_nil.mp ht.symm with ⟨rfl, rfl⟩
      simp only [Option.some.injEq, Prod.mk.injEq] at h
      simp [← h.1, ← h.2]
    · cases h
  | cons c rest ih =>
    simp only [splitOnFirst] at h
    split at h
    · rename_i hp
      obtain ⟨t, ht⟩ := (startsWithL_iff_eq_append sep (c :: rest)).mp hp
      simp only [Option.some.injEq, Prod.mk.injEq] at h
      rw [← h.1, ← h.2, ht]
      simp
    · match hrec : splitOnFirst sep rest with
      | some (a', b') =>
        rw [hrec] at h
        simp only [Option.some.injEq, Prod.mk.injEq] at h
        rw [← h.1, ← h.2]
        simpa using ih a' b' hrec
      | none => rw [hrec] at h; cases h

theorem splitOnFirst_complete (sep x y : List Char) :
    (splitOnFirst sep (x ++ sep ++ y)).isSome = true := by
  induction x with
  | nil =>
    cases hs : sep ++ y with
    | nil =>
      rcases List.append_eq_nil.mp hs with ⟨rfl, rfl⟩
      simp [splitOnFirst, startsWithL]
    | cons c rest =>
      simp only [List.nil_append, hs, splitOnFirst]
      rw [← hs, startsWithL_append_self]
      simp
  | cons c x ih =>
    simp only [List.cons_append, splitOnFirst]
    split
    · simp
    · match hrec : splitOnFirst sep (x ++ sep ++ y) with
      | some (a, b) => simp
      | none => rw [hrec] at ih; simp at ih

/-! ## Frontmatter values and the raw field bag

`parseFrontmatter` (markdown.ts) builds `raw : Record<string, unknown>`
whose values are strings, booleans or arrays of strings. -/

/-- A value in the raw frontmatter bag. -/
inductive FmValue
  | str (s : List Char)
  | bool (b : Bool)
  | list (xs : List (List Char))
deriving DecidableEq

/-- JS truthiness of an `FmValue` (`""` and `false` are falsy; an array is
always truthy). -/
def FmValue.truthy : FmValue → Bool
  | .str s => !s.isEmpty
  | .bool b => b
  | .list _ => true

/-- Truthiness of a possibly-absent value (`undefined` is falsy). -/
def truthyOpt (v : Option FmValue) : Bool :=
  match v with
  | some x => x.truthy
  | none => false

/-- JS `a || b` on possibly-absent frontmatter values. -/
def jsOrV (a b : Option FmValue) : Option FmValue :=
  if truthyOpt a then a else b

/-- The raw bag, as the ordered list of assignments the parse loop makes
(`raw[key] = v`; a later assignment to the same key overwrites). -/
abbrev FmAssigns := List (List Char × FmValue)

/-- Read a key from the bag: the value of the last assignment to it. -/
def bagGet (as : FmAssigns) (k : List Char) : Option FmValue :=
  (as.foldl (fun acc kv => if kv.1 = k then some kv.2 else acc) none)

/-! ## parseFrontmatter (markdown.ts lines 7–169) -/

/-- Strip a wrapping pair of double quotes or a wrapping pair of single
quotes (`value.startsWith('"') && value.endsWith('"')` … `value.slice(1, -1)`). -/
def stripWrapQuotes (v : List Char) : List Char :=
  if (startsWithL ['"'] v && endsWithL ['"'] v)
      || (startsWithL ['\''] v && endsWithL ['\''] v) then
    (v.drop 1).dropLast
  else v

/-- The regex replace with `^["']|["']$` (global): remove at most one
leading quote character and at
most one trailing quote character, independently. -/
def stripEdgeQuotes (v : List Char) : List Char :=
  let v1 := match v with
    | '"' :: rest => rest
    | '\'' :: rest => rest
    | other => other
  match v1.getLast? with
  | some '"' => v1.dropLast
  | some '\'' => v1.dropLast
  | _ => v1

/-- Parse an inline bracketed array `[a, b]` (the delimiters have already
been checked): drop the brackets, split on commas, trim each item and
strip edge quotes.  JS `"".split(",")` yields `[""]`, matched by
`List.splitOn` on the empty list. -/
def parseInlineArray (v : List Char) : List (List Char) :=
  (((v.drop 1).dropLast).splitOn ',').map (fun item => stripEdgeQuotes (jsTrim item))

/-- The YAML block-list item regex `/^\s+-\s*(.*)$/`: at least one
whitespace character, a dash, optional whitespace, capture the rest. -/
def matchListItem (line : List Char) : Option (List Char) :=
  let w := line.takeWhile isJsWs
  if w.isEmpty then none
  else match line.drop w.length with
    | '-' :: rest => some (rest.dropWhile isJsWs)
    | _ => none

/-- The lookahead of the block-list branch: starting right after a
`key:` line with empty value, collect consecutive list items (skipping
blank lines); return the items and the lines remaining after the block. -/
def collectListItems : List (List Char) → List (List Char) × List (List Char)
  | [] => ([], [])
  | l :: rest =>
    match matchListItem l with
    | some cap =>
      let item := stripWrapQuotes (jsTrim cap)
      let (items, rem) := collectListItems rest
      (item :: items, rem)
    | none =>
      if (jsTrim l).isEmpty then collectListItems rest
      else ([], l :: rest)

theorem collectListItems_rem_length_le (ls : List (List Char)) :
    (collectListItems ls).2.length ≤ ls.length := by
  induction ls with
  | nil => simp [collectListItems]
  | cons l rest ih =>
    simp only [collectListItems]
    split
    · simp only
      exact Nat.le_succ_of_le ih
    · split
      · exact Nat.le_succ_of_le ih
      · simp

/-- The main parse loop over the frontmatter lines (the `while` loop of
`parseFrontmatter`); the loop index advances by at least one line per
iteration (the block-list branch jumps past the consumed items), so the
loop is run with the line count as structural fuel — every iteration
consumes at least one line, hence the fuel never runs out before the
lines do.  `isToml` selects the `=` separator (`+++` blocks) over `:`. -/
def parseFmLinesGo (isToml : Bool) : Nat → List (List Char) → FmAssigns
  | 0, _ => []
  | _, [] => []
  | fuel + 1, line :: rest =>
    match splitAtFirstChar (if isToml then '=' else ':') line with
    | none => parseFmLinesGo isToml fuel rest
    | some (k, v) =>
      let key := jsTrim k
      let value := stripWrapQuotes (jsTrim v)
      if startsWithL ['['] value && endsWithL [']'] value then
        (key, .list (parseInlineArray value)) :: parseFmLinesGo isToml fuel rest
      else if value.isEmpty && !isToml then
        let res := collectListItems rest
        if !res.1.isEmpty then
          (key, .list res.1) :: parseFmLinesGo isToml fuel res.2
        else
          (key, .str value) :: parseFmLinesGo isToml fuel rest
      else if value = ['t','r','u','e'] then
        (key, .bool true) :: parseFmLinesGo isToml fuel rest
      else if value = ['f','a','l','s','e'] then
        (key, .bool false) :: parseFmLinesGo isToml fuel rest
      else
        (key, .str value) :: parseFmLinesGo isToml fuel rest

/-- The parse loop, started with enough fuel for every iteration. -/
def parseFmLines (isToml : Bool) (lines : List (List Char)) : FmAssigns :=
  parseFmLinesGo isToml lines.length lines

/-- The three metadata-block delimiters of the source, in the regex's
alternation order: `---`, `+++`, `***`. -/
def fmDelims : List (List Char) :=
  [['-','-','-'], ['+','+','+'], ['*','*','*']]

/-- Leading-delimiter detection of the anchored regex: the content must
start with a delimiter followed by a newline. -/
def detectDelim (c : List Char) : Option (List Char) :=
  if startsWithL ['-','-','-','\n'] c then some ['-','-','-']
  else if startsWithL ['+','+','+','\n'] c then some ['+','+','+']
  else if startsWithL ['*','*','*','\n'] c then some ['*','*','*']
  else none

/-- The frontmatter regex
`/^(---|\+\+\+|\*\*\*)\n([\s\S]*?)\n\1\n([\s\S]*)$/`: returns
(delimiter, metadata text, body).  The lazy middle group means the
*first* occurrence of `"\n" ++ delimiter ++ "\n"` after the opening
line closes the block. -/
def matchFrontmatter (c : List Char) :
    Option (List Char × List Char × List Char) :=
  match detectDelim c with
  | none => none
  | some d =>
    match splitOnFirst ('\n' :: (d ++ ['\n'])) (c.drop 4) with
    | none => none
    | some (fm, body) => some (d, fm, body)

/-- Configurable frontmatter field-name mapping (types.ts
`FrontmatterMapping`); absent fields fall back to built-in defaults. -/
structure FrontmatterMapping where
  title : Option (List Char) := none
  description : Option (List Char) := none
  publishDate : Option (List Char) := none
  coverImage : Option (List Char) := none
  tags : Option (List Char) := none
  draft : Option (List Char) := none
  slugField : Option (List Char) := none
deriving DecidableEq

/-- The fallback `mapping?.field || "default"`: the configured name when
truthy, the
default otherwise. -/
def fieldOr (m : Option (List Char)) (d : List Char) : List Char :=
  match m with
  | some s => if s.isEmpty then d else s
  | none => d

/-- The normalized frontmatter produced by the mapping step
(types.ts `PostFrontmatter`, with absence made explicit). -/
structure PostFm where
  title : Option FmValue := none
  description : Option FmValue := none
  publishDate : Option FmValue := none
  ogImage : Option FmValue := none
  tags : Option FmValue := none
  draft : Option Bool := none
  atUri : Option FmValue := none
deriving DecidableEq

/-- The fallback date field names tried in order when neither the mapped
field nor `publishDate` is set. -/
def dateFallbacks : List (List Char) :=
  [['p','u','b','D','a','t','e'], ['d','a','t','e'],
   ['c','r','e','a','t','e','d','A','t'],
   ['c','r','e','a','t','e','d','_','a','t']]

/-- The publish-date selection: mapped field first (when the mapping names
one and its value is truthy), then `publishDate`, then the fallbacks. -/
def pickPublishDate (m : FrontmatterMapping) (raw : FmAssigns) : Option FmValue :=
  match m.publishDate with
  | some df =>
    if !df.isEmpty && truthyOpt (bagGet raw df) then bagGet raw df
    else pickFallback raw
  | none => pickFallback raw
where
  /-- `raw.publishDate`, else the first truthy fallback field. -/
  pickFallback (raw : FmAssigns) : Option FmValue :=
    if truthyOpt (bagGet raw ['p','u','b','l','i','s','h','D','a','t','e']) then
      bagGet raw ['p','u','b','l','i','s','h','D','a','t','e']
    else
      match dateFallbacks.find? (fun f => truthyOpt (bagGet raw f)) with
      | some f => bagGet raw f
      | none => none

/-- The field-mapping normalization step of `parseFrontmatter`
(markdown.ts lines 118–162). -/
def normalizeFm (m : FrontmatterMapping) (raw : FmAssigns) : PostFm :=
  let draftVal :=
    (bagGet raw (fieldOr m.draft ['d','r','a','f','t'])).orElse
      (fun _ => bagGet raw ['d','r','a','f','t'])
  { title := jsOrV (bagGet raw (fieldOr m.title ['t','i','t','l','e']))
      (bagGet raw ['t','i','t','l','e'])
    description := jsOrV
      (bagGet raw (fieldOr m.description
        ['d','e','s','c','r','i','p','t','i','o','n']))
      (bagGet raw ['d','e','s','c','r','i','p','t','i','o','n'])
    publishDate := pickPublishDate m raw
    ogImage := jsOrV (bagGet raw (fieldOr m.coverImage ['o','g','I','m','a','g','e']))
      (bagGet raw ['o','g','I','m','a','g','e'])
    tags := jsOrV (bagGet raw (fieldOr m.tags ['t','a','g','s']))
      (bagGet raw ['t','a','g','s'])
    draft := draftVal.map (fun v =>
      v = FmValue.bool true || v = FmValue.str ['t','r','u','e'])
    atUri := bagGet raw ['a','t','U','r','i'] }

/-- The result of a successful `parseFrontmatter` call. -/
structure ParsedFm where
  frontmatter : PostFm
  body : List Char
  rawAssigns : FmAssigns
deriving DecidableEq

/-- Model of `parseFrontmatter(content, mapping)` — `none` models the thrown
`"Could not parse frontmatter"` error; every other code path is total. -/
def parseFrontmatter (c : List Char) (m : FrontmatterMapping) : Option ParsedFm :=
  match matchFrontmatter c with
  | none => none
  | some (d, fmStr, body) =>
    let isToml := d = ['+','+','+']
    let raw := parseFmLines isToml (fmStr.splitOn '\n')
    some { frontmatter := normalizeFm m raw, body := body, rawAssigns := raw }

/-! ## Slug and path resolution (markdown.ts lines 171–279) -/

/-- The extension strip `.replace(..mdx?$.., "")`: remove a trailing
`.mdx` or `.md`. -/
def stripMdExt (s : List Char) : List Char :=
  if endsWithL ['.','m','d','x'] s then s.dropLast.dropLast.dropLast.dropLast
  else if endsWithL ['.','m','d'] s then s.dropLast.dropLast.dropLast
  else s

/-- The whitespace collapse `.replace(\s+ global, "-")`: collapse each
whitespace run to one dash
(the flag records whether the scanner is inside a run whose dash has
already been emitted). -/
def wsToDashGo : Bool → List Char → List Char
  | _, [] => []
  | inRun, c :: rest =>
    if isJsWs c then
      if inRun then wsToDashGo true rest
      else '-' :: wsToDashGo true rest
    else c :: wsToDashGo false rest

/-- JS `.replace(\s+ global, "-")`. -/
def wsToDash (s : List Char) : List Char :=
  wsToDashGo false s

/-- JS `.toLowerCase()` (ASCII-faithful). -/
def lowerL (s : List Char) : List Char := s.map Char.toLower

/-- Normalization shared by both slug sources: strip extension,
lower-case, whitespace to dashes. -/
def slugOfRelPath (rel : List Char) : List Char :=
  wsToDash (lowerL (stripMdExt rel))

/-- The leading-slash strip `.replace(^\/ , "")`: drop one leading
slash. -/
def dropLeadSlash : List Char → List Char
  | '/' :: rest => rest
  | other => other

/-- The index strip: remove a trailing `/index` or `/_index`. -/
def removeIndexSuffix (s : List Char) : List Char :=
  if endsWithL ['/','_','i','n','d','e','x'] s then s.dropLast.dropLast.dropLast.dropLast.dropLast.dropLast.dropLast
  else if endsWithL ['/','i','n','d','e','x'] s then s.dropLast.dropLast.dropLast.dropLast.dropLast.dropLast
  else s

/-- Does the list start with `\d{4}-\d{2}-\d{2}-` (a Jekyll date token)? -/
def dateTokenAt (l : List Char) : Bool :=
  match l.take 11 with
  | [a,b,c,d,h1,e,f,h2,g,h,h3] =>
    [a,b,c,d,e,f,g,h].all Char.isDigit && h1 = '-' && h2 = '-' && h3 = '-'
  | _ => false

/-- Scanner for the global date-token replacement after the
start-of-string position has been handled: a date token is only removed
right after a `/` (the `$1` back-reference keeps the slash). -/
def stripDateGo : List Char → List Char
  | [] => []
  | '/' :: rest =>
    if dateTokenAt rest then '/' :: stripDateGo (rest.drop 11)
    else '/' :: stripDateGo rest
  | c :: rest => c :: stripDateGo rest
termination_by l => l.length
decreasing_by
  · simp only [List.length_cons, List.length_drop]; omega
  · simp
  · simp

/-- The Jekyll-date replacement: every date token at the start of the
string or right after a slash is removed, keeping the boundary (the
`stripDatePrefix` regex replace of `getSlugFromOptions`). -/
def stripDateTokens (s : List Char) : List Char :=
  if dateTokenAt s then stripDateGo (s.drop 11) else stripDateGo s

/-- Options of `getSlugFromOptions` (markdown.ts `SlugOptions`). -/
structure SlugOptions where
  slugField : Option (List Char) := none
  removeIndexFromSlug : Bool := false
  stripDatePre : Bool := false
deriving DecidableEq

/-- Model of `getSlugFromOptions(relativePath, rawFrontmatter, options)`. -/
def getSlugFromOptions (rel : List Char) (raw : FmAssigns)
    (opts : SlugOptions) : List Char :=
  let base :=
    match opts.slugField with
    | some sf =>
      if sf.isEmpty then slugOfRelPath rel
      else
        match bagGet raw sf with
        | some (.str s) =>
          if s.isEmpty then slugOfRelPath rel
          else wsToDash (lowerL (dropLeadSlash s))
        | _ => slugOfRelPath rel
    | none => slugOfRelPath rel
  let base := if opts.removeIndexFromSlug then removeIndexSuffix base else base
  if opts.stripDatePre then stripDateTokens base else base

/-! ## Path templates and resolvePostPath (markdown.ts lines 234–279) -/

/-- Left brace / right brace characters of the `{token}` syntax. -/
def lb : Char := Char.ofNat 123

/-- Right brace. -/
def rb : Char := Char.ofNat 125

/-- Build the literal token `left-brace ++ name ++ right-brace`. -/
def mkTok (name : List Char) : List Char := lb :: name ++ [rb]

/-- Global literal-string replacement (`String.replace` with a `g` regex
on a literal token): matches are located left to right in the input and
replacement text is never rescanned. -/
def replaceTok (tok : List Char) (repl : List Char) : List Char → List Char
  | [] => []
  | c :: rest =>
    if h : ¬tok.isEmpty ∧ startsWithL tok (c :: rest) then
      repl ++ replaceTok tok repl ((c :: rest).drop tok.length)
    else c :: replaceTok tok repl rest
termination_by l => l.length
decreasing_by
  · simp only [List.length_cons, List.length_drop]
    have : 0 < tok.length := by
      cases tok with
      | nil => simp at h
      | cons a as => simp
    omega
  · simp

/-- A JS word character (`\w`). -/
def isWordChar (c : Char) : Bool :=
  ('a' ≤ c && c ≤ 'z') || ('A' ≤ c && c ≤ 'Z') || ('0' ≤ c && c ≤ '9') || c = '_'

/-- The catch-all field replacement: each remaining `{field}` token (one
or more word characters in braces) is replaced by the raw frontmatter
value when it is a string, and by the empty string otherwise. -/
def replaceFieldToks (raw : FmAssigns) : List Char → List Char
  | [] => []
  | c :: rest =>
    if c = lb then
      let w := rest.takeWhile isWordChar
      if !w.isEmpty && startsWithL [rb] (rest.drop w.length) then
        let repl :=
          match bagGet raw w with
          | some (.str s) => s
          | _ => []
        repl ++ replaceFieldToks raw (rest.drop (w.length + 1))
      else c :: replaceFieldToks raw rest
    else c :: replaceFieldToks raw rest
termination_by l => l.length
decreasing_by
  · simp only [List.length_cons, List.length_drop]; omega
  · simp
  · simp

/-- The non-word-character removal used for the title token: keep only
word characters and
dashes. -/
def keepWordDash (s : List Char) : List Char :=
  s.filter (fun c => isWordChar c || c = '-')

/-- The `{title}` slugification: `(title || "").toLowerCase()
.replace(/\s+/g, "-").replace(/[^\w-]/g, "")`.  A non-string (or falsy)
title contributes the empty string. -/
def slugifyTitle (title : Option FmValue) : List Char :=
  let t := match title with
    | some (.str s) => s
    | _ => []
  keepWordDash (wsToDash (lowerL t))

/-- The year/month/day strings obtained from `new Date(publishDate)`
(`getFullYear`, zero-padded `getMonth()+1` and `getDate()`); `Date`
parsing is an environment primitive, so it enters as an oracle. -/
structure DateOracle where
  parts : Option FmValue → List Char × List Char × List Char

/-- The fields of a post that `resolvePathTemplate`/`resolvePostPath`
consume (a `BlogPost` restricted to slug, normalized frontmatter and the
raw bag). -/
structure PathPost where
  slug : List Char
  frontmatter : PostFm
  rawAssigns : FmAssigns
deriving DecidableEq

/-- Model of `resolvePathTemplate(template, post)`: substitute the five known
tokens, then arbitrary `{field}` tokens from the raw bag, then force a
leading slash. -/
def resolvePathTemplate (tpl : List Char) (p : PathPost) (d : DateOracle) :
    List Char :=
  let ymd := d.parts p.frontmatter.publishDate
  let r := replaceTok (mkTok ['s','l','u','g']) p.slug tpl
  let r := replaceTok (mkTok ['y','e','a','r']) ymd.1 r
  let r := replaceTok (mkTok ['m','o','n','t','h']) ymd.2.1 r
  let r := replaceTok (mkTok ['d','a','y']) ymd.2.2 r
  let r := replaceTok (mkTok ['t','i','t','l','e'])
    (slugifyTitle p.frontmatter.title) r
  let r := replaceFieldToks p.rawAssigns r
  if startsWithL ['/'] r then r else '/' :: r

/-- Truthiness of an optional string option (absent or empty is falsy). -/
def truthyStrOpt (s : Option (List Char)) : Bool :=
  match s with
  | some v => !v.isEmpty
  | none => false

/-- The fallback `pathPrefix || "/posts"`. -/
def effectivePathPref (pref : Option (List Char)) : List Char :=
  match pref with
  | some v => if v.isEmpty then '/' :: ['p','o','s','t','s'] else v
  | none => '/' :: ['p','o','s','t','s']

/-- Model of `resolvePostPath(post, pathPrefix?, pathTemplate?)`: a truthy path
template takes precedence; otherwise `prefix + "/" + slug`. -/
def resolvePostPath (p : PathPost) (pref tpl : Option (List Char))
    (d : DateOracle) : List Char :=
  if truthyStrOpt tpl then resolvePathTemplate (tpl.getD []) p d
  else effectivePathPref pref ++ '/' :: p.slug

/-! ## Content scanner (markdown.ts lines 289–389) -/

/-- A scanned post (`BlogPost` as assembled by `scanContentDirectory`,
with the path kept relative to the content root). -/
structure ScanPost where
  rel : List Char
  slug : List Char
  frontmatter : PostFm
  content : List Char
  rawContent : List Char
  rawAssigns : FmAssigns
deriving DecidableEq

/-- Everything `scanContentDirectory` needs besides the directory
listing: the frontmatter mapping and slug options from the config, the
ignore-pattern matcher (`minimatch` is an external library, entering as
an oracle over the relative path), and the `new Date(...).getTime()`
oracle used by the final sort. -/
structure ScanEnv where
  mapping : FrontmatterMapping
  ignores : List Char → Bool
  slugField : Option (List Char) := none
  removeIndexFromSlug : Bool := false
  stripDatePre : Bool := false
  dateVal : Option FmValue → Int

/-- Per-file step of the scan loop: skip ignored files, parse the
frontmatter (a parse failure is caught, logged and skips the file),
compute the slug, assemble the post. -/
def scanOne (env : ScanEnv) (rel content : List Char) : Option ScanPost :=
  if env.ignores rel then none
  else
    match parseFrontmatter content env.mapping with
    | none => none
    | some pf =>
      some { rel := rel
             slug := getSlugFromOptions rel pf.rawAssigns
               { slugField := env.slugField
                 removeIndexFromSlug := env.removeIndexFromSlug
                 stripDatePre := env.stripDatePre }
             frontmatter := pf.frontmatter
             content := pf.body
             rawContent := content
             rawAssigns := pf.rawAssigns }

/-- The comparator of the final `posts.sort`: publish date descending. -/
def scanSortLe (env : ScanEnv) (a b : ScanPost) : Bool :=
  env.dateVal b.frontmatter.publishDate ≤ env.dateVal a.frontmatter.publishDate

/-- Model of `scanContentDirectory(contentDir, options)` over a directory
listing
given as (relative path, file contents) pairs in glob order: filter and
parse each file, then sort by publish date, newest first. -/
def scanContentDirectory (env : ScanEnv)
    (files : List (List Char × List Char)) : List ScanPost :=
  (files.filterMap (fun fc => scanOne env fc.1 fc.2)).mergeSort (scanSortLe env)

/-! ## updateFrontmatterWithAtUri (markdown.ts lines 391–422)

Only the properties of the rewrite that the publish reconciler's claims
rely on are needed (the ledger stores the hash of whatever the rewrite
returned), so the publish model below takes the rewrite as an
uninterpreted function; the parsing-side definitions above are the
concrete translations. -/

/-! ## State ledger (config.ts, types.ts `PublisherState`/`PostState`) -/

/-- A `com.atproto.repo.strongRef` — a (uri, cid) pair. -/
structure StrongRef where
  uri : String
  cid : String
deriving DecidableEq

/-- One ledger entry (`PostState`). -/
structure PostState where
  contentHash : String
  atUri : Option String := none
  lastPublished : Option String := none
  slug : Option String := none
  bskyPostRef : Option StrongRef := none
deriving DecidableEq

/-- The persisted mapping, keyed by the path relative to the config
root (`PublisherState.posts`). -/
def Ledger := String → Option PostState

/-- JS object assignment `state.posts[key] = entry`. -/
def setEntry (L : Ledger) (k : String) (v : PostState) : Ledger :=
  fun x => if x = k then some v else L x

/-- The empty mapping. -/
def emptyLedger : Ledger := fun _ => none

/-- Model of `loadState(configDir)` (config.ts lines 147–160).  The file
system
and `JSON.parse` are environment primitives: `file` is the state file's
contents when it exists and `parseJson` is the JSON parser, returning
`Except` to model a thrown `SyntaxError`.  The result is an `Except` so
that "never throws" is a provable statement rather than a typing
artifact. -/
def loadState (file : Option String)
    (parseJson : String → Except String Ledger) : Except String Ledger :=
  match file with
  | none => .ok emptyLedger
  | some content =>
    match parseJson content with
    | .ok st => .ok st
    | .error _ => .ok emptyLedger

/-! ## Publish reconciler (publish.ts lines 486–705) -/

/-- The two remote write actions. -/
inductive PubAction
  | create
  | update
deriving DecidableEq

/-- The classification outcome for one scanned post. -/
inductive Classified
  | skipDraft
  | toPublish (a : PubAction)
  | upToDate
deriving DecidableEq

/-- A scanned post as the publish loop consumes it: the ledger key
(`path.relative(configDir, post.filePath)`), the normalized draft flag
and embedded identifier, the raw content that is hashed, the publish
date string, the slug and the cover-image reference. -/
structure PubPost where
  path : String
  draft : Bool
  atUri : Option String := none
  rawContent : String
  publishDate : String := ""
  slug : String := ""
  ogImage : Option String := none
deriving DecidableEq

/-- JS truthiness of the embedded identifier
(`post.frontmatter.atUri ? "update" : "create"`). -/
def PubPost.atUriTruthy (p : PubPost) : Bool :=
  match p.atUri with
  | some s => !s.isEmpty
  | none => false

/-- The action chosen when a post must be (re)published: update when an
identifier is embedded in the frontmatter, create otherwise. -/
def actionFor (p : PubPost) : PubAction :=
  if p.atUriTruthy then .update else .create

/-- The per-post classification of the publish reconciler (the first
loop of the handler): drafts are skipped; `--force` republishes; a post
with no ledger entry is new; a fingerprint mismatch republishes; a
matching fingerprint needs no action. -/
def classifyPost (force : Bool) (hash : String → String) (L : Ledger)
    (p : PubPost) : Classified :=
  if p.draft then .skipDraft
  else if force then .toPublish (actionFor p)
  else
    match L p.path with
    | none => .toPublish .create
    | some st =>
      if st.contentHash ≠ hash p.rawContent then .toPublish (actionFor p)
      else .upToDate

/-- The `postsToPublish` list: the classified posts that need a create
or update, in scan order. -/
def postsToPublish (force : Bool) (hash : String → String) (L : Ledger)
    (posts : List PubPost) : List (PubPost × PubAction) :=
  posts.filterMap (fun p =>
    match classifyPost force hash L p with
    | .toPublish a => some (p, a)
    | _ => none)

/-- The `draftPosts` list. -/
def draftPosts (posts : List PubPost) : List PubPost :=
  posts.filter (·.draft)

/-- Environment of a publish run.  Remote behaviour and external
primitives enter as oracles keyed by the post's ledger path:
`hash` is `getContentHash` (SHA-256), `rewriteAtUri` is
`updateFrontmatterWithAtUri`, `newUri` the identifier returned by
`createDocument`, `docWriteFails` whether the per-post remote document
write (`createDocument`/`updateDocument`) throws, `bskyCreateResult`
the outcome of `createBlueskyPost` (`none` models a thrown, caught
error), `imageUpload` whether a cover-image blob upload call happens
(image resolved to an existing file), `recentEnough` the negation of
`publishDate < cutoffDate`, and `now` the timestamp written to
`lastPublished`. -/
structure PublishEnv where
  force : Bool := false
  blueskyEnabled : Bool := false
  recentEnough : String → Bool := fun _ => true
  hash : String → String
  rewriteAtUri : String → String → String
  newUri : String → String
  docWriteFails : String → Bool := fun _ => false
  bskyCreateResult : String → Option StrongRef := fun _ => none
  imageUpload : String → Bool := fun _ => false
  now : String := ""

/-- Truthiness of the cover-image field. -/
def PubPost.ogImageTruthy (p : PubPost) : Bool :=
  match p.ogImage with
  | some s => !s.isEmpty
  | none => false

/-- Outcome of executing one classified post. -/
structure PubOutcome where
  post : PubPost
  entry : Option PostState
  failed : Bool
  writes : Nat
deriving DecidableEq

/-- The Bluesky post reference stored in the ledger entry: the existing
reference when one is already recorded, otherwise the result of the
attempted `createBlueskyPost` when posting is enabled and the post is
recent enough. -/
def bskyRefFor (env : PublishEnv) (existing : Option StrongRef)
    (p : PubPost) : Option StrongRef :=
  if env.blueskyEnabled then
    match existing with
    | some r => some r
    | none =>
      if env.recentEnough p.publishDate then env.bskyCreateResult p.path
      else none
  else none

/-- The post as it is on disk after a successful publish: on create the
file is rewritten with the assigned identifier embedded; on update it
is untouched. -/
def publishedPost (env : PublishEnv) (p : PubPost) : PubAction → PubPost
  | .create =>
    { p with rawContent := env.rewriteAtUri p.rawContent (env.newUri p.path)
             atUri := some (env.newUri p.path) }
  | .update => p

/-- The ledger entry written for a successfully published post
(publish.ts lines 686–694): the hash is taken of the rewritten content
on create (`contentForHash = updatedContent`) and of the unchanged
content on update. -/
def publishEntry (env : PublishEnv) (existing : Option StrongRef)
    (p : PubPost) (a : PubAction) : PostState :=
  let uri := match a with
    | .create => env.newUri p.path
    | .update => p.atUri.getD ""
  let contentForHash := match a with
    | .create => env.rewriteAtUri p.rawContent (env.newUri p.path)
    | .update => p.rawContent
  { contentHash := env.hash contentForHash
    atUri := some uri
    lastPublished := some env.now
    slug := some p.slug
    bskyPostRef := bskyRefFor env existing p }

/-- Execute the per-post publish steps (the `try` block of the publish
loop) against the current ledger: attempt the cover-image upload, then
the document write — whose failure aborts the post, leaving the file
and ledger entry untouched — then the frontmatter rewrite on create,
the optional Bluesky cross-post (its failure is caught internally), and
produce the new ledger entry.  `writes` counts attempted remote write
calls (blob upload, document create/put, feed-post create, back-reference
put). -/
def execPost (env : PublishEnv) (L : Ledger) (p : PubPost) (a : PubAction) :
    PubOutcome :=
  let imgWrites := if p.ogImageTruthy && env.imageUpload p.path then 1 else 0
  if env.docWriteFails p.path then
    { post := p, entry := none, failed := true, writes := imgWrites + 1 }
  else
    let p' := publishedPost env p a
    let existing := (L p.path).bind (·.bskyPostRef)
    let bskyAttempt := env.blueskyEnabled && existing.isNone
      && env.recentEnough p.publishDate
    let bskyWrites :=
      if bskyAttempt then
        1 + (if (env.bskyCreateResult p.path).isSome then 1 else 0)
      else 0
    { post := p'
      entry := some (publishEntry env existing p a)
      failed := false
      writes := imgWrites + 1 + bskyWrites }

/-- Mutable run state threaded through the publish loop. -/
structure ExecState where
  ledger : Ledger
  updated : String → Option PubPost
  publishedCount : Nat := 0
  updatedCount : Nat := 0
  errorCount : Nat := 0
  writes : Nat := 0

/-- One iteration of the publish loop. -/
def execStep (env : PublishEnv) (s : ExecState) (pa : PubPost × PubAction) :
    ExecState :=
  let o := execPost env s.ledger pa.1 pa.2
  if o.failed then
    { s with errorCount := s.errorCount + 1, writes := s.writes + o.writes }
  else
    { ledger := match o.entry with
        | some e => setEntry s.ledger pa.1.path e
        | none => s.ledger
      updated := fun x => if x = pa.1.path then some o.post else s.updated x
      publishedCount := s.publishedCount + (if pa.2 = .create then 1 else 0)
      updatedCount := s.updatedCount + (if pa.2 = .update then 1 else 0)
      errorCount := s.errorCount
      writes := s.writes + o.writes }

/-- The whole execution phase over the classified list. -/
def execAll (env : PublishEnv) (s : ExecState)
    (l : List (PubPost × PubAction)) : ExecState :=
  l.foldl (execStep env) s

/-- Result of a full (non-dry-run) publish run. -/
structure RunResult where
  posts : List PubPost
  ledger : Ledger
  publishedCount : Nat
  updatedCount : Nat
  errorCount : Nat
  writes : Nat

/-- A full publish run: classify every scanned post against the loaded
ledger, execute the classified list in order, and report the posts as
they are on disk afterwards together with the saved ledger and the
summary counters. -/
def runPublish (env : PublishEnv) (posts : List PubPost) (L : Ledger) :
    RunResult :=
  let toPub := postsToPublish env.force env.hash L posts
  let s := execAll env
    { ledger := L, updated := fun _ => none } toPub
  { posts := posts.map (fun p => (s.updated p.path).getD p)
    ledger := s.ledger
    publishedCount := s.publishedCount
    updatedCount := s.updatedCount
    errorCount := s.errorCount
    writes := s.writes }

/-! ## listDocuments and the sync reconciler (atproto.ts, sync.ts) -/

/-- A `site.standard.document` record value (the fields `listDocuments`'
type guard requires, plus those sync reads). -/
structure DocValue where
  title : String
  site : String
  docPath : String
  textContent : String
  publishedAt : String
deriving DecidableEq

/-- A record value as returned by `listRecords`: either a document
record (the type guard `isDocumentRecord` accepts it) or anything else
(the guard rejects it). -/
inductive RecordValue
  | doc (d : DocValue)
  | other
deriving DecidableEq

/-- One record of a `listRecords` response. -/
structure RemoteRecord where
  uri : String
  cid : String
  value : RecordValue
deriving DecidableEq

/-- The remote calls the embedded commands can make. -/
inductive RemoteCall
  | listRecordsCall
  | createRecordCall
  | putRecordCall
  | uploadBlobCall
  | getRecordCall
deriving DecidableEq

/-- A filtered document entry (`ListDocumentsResult`). -/
structure DocEntry where
  uri : String
  cid : String
  value : DocValue
deriving DecidableEq

/-- Keep the records of one page that pass the type guard and, when a
publication URI is configured (truthy), belong to that publication. -/
def filterDocPage (pubUri : Option String) (page : List RemoteRecord) :
    List DocEntry :=
  page.filterMap (fun r =>
    match r.value with
    | .doc d =>
      if truthyStrOpt (pubUri.map (·.data)) && pubUri ≠ some d.site then none
      else some { uri := r.uri, cid := r.cid, value := d }
    | .other => none)

/-- Model of `listDocuments(agent, publicationUri?)`: follow the cursor
through
every page (the remote environment supplies the page sequence), one
`listRecords` call per page, collecting the filtered documents. -/
def listDocuments (pages : List (List RemoteRecord)) (pubUri : Option String) :
    List DocEntry × List RemoteCall :=
  (pages.foldr (fun pg acc => filterDocPage pubUri pg ++ acc) [],
   pages.map (fun _ => RemoteCall.listRecordsCall))

/-- A local post as the sync command consumes it: ledger key, absolute
file path, slug, raw content and the frontmatter-embedded identifier. -/
structure LocalPost where
  rel : String
  filePath : String
  slug : String
  rawContent : String
  fmAtUri : Option String := none
deriving DecidableEq

/-- The `postsByPath` map: document path `prefix + "/" + slug` to post;
built with `Map.set`, so a later post with the same path wins. -/
def postsByPath (pref : String) (posts : List LocalPost) :
    String → Option LocalPost :=
  posts.foldl
    (fun m p => fun k => if k = pref ++ "/" ++ p.slug then some p else m k)
    (fun _ => none)

/-- Environment of a sync run. -/
structure SyncEnv where
  updateFm : Bool := false
  dryRun : Bool := false
  pathPref : Option String := none
  pubUri : Option String := none
  hash : String → String
  statePath : String := ".sequoia-state.json"

/-- The ledger entry sync writes for a matched post (sync.ts lines
182–186): content hash of the current local content, the remote record's
uri and publish timestamp — and nothing else. -/
def syncEntry (env : SyncEnv) (p : LocalPost) (d : DocEntry) : PostState :=
  { contentHash := env.hash p.rawContent
    atUri := some d.uri
    lastPublished := some d.value.publishedAt }

/-- Mutable state of the document-matching loop. -/
structure SyncState where
  ledger : Ledger
  matched : Nat := 0
  unmatched : Nat := 0
  queue : List (String × String) := []

/-- One iteration of the matching loop: a document whose path has a
local post updates that post's ledger entry (and queues a frontmatter
rewrite when requested and the embedded identifier differs); a document
with no local match is only counted. -/
def syncStep (env : SyncEnv) (byPath : String → Option LocalPost)
    (st : SyncState) (doc : DocEntry) : SyncState :=
  match byPath doc.value.docPath with
  | some post =>
    let st' := { st with
      ledger := setEntry st.ledger post.rel (syncEntry env post doc)
      matched := st.matched + 1 }
    if env.updateFm && post.fmAtUri ≠ some doc.uri then
      { st' with queue := st'.queue ++ [(post.filePath, doc.uri)] }
    else st'
  | none => { st with unmatched := st.unmatched + 1 }

/-- Result of a sync run. -/
structure SyncResult where
  ledger : Ledger
  matched : Nat
  unmatched : Nat
  remoteCalls : List RemoteCall
  filesWritten : List String

/-- The fallback `config.pathPrefix || "/posts"` as the sync matcher
uses it. -/
def syncPref (env : SyncEnv) : String :=
  match env.pathPref with
  | some v => if v.isEmpty then "/posts" else v
  | none => "/posts"

/-- A full sync run (sync.ts handler, post-login): list the remote
documents, scan local posts (given here already scanned), match each
document by computed path, and — unless dry-run — save the state file
and apply the queued frontmatter rewrites.  `filesWritten` records
every local file written (the state file and the rewritten posts);
sync never deletes or creates content files. -/
def syncRun (env : SyncEnv) (pages : List (List RemoteRecord))
    (localPosts : List LocalPost) (L : Ledger) : SyncResult :=
  let ld := listDocuments pages env.pubUri
  if ld.1.isEmpty then
    { ledger := L, matched := 0, unmatched := 0, remoteCalls := ld.2
      filesWritten := [] }
  else
    let byPath := postsByPath (syncPref env) localPosts
    let final := ld.1.foldl (syncStep env byPath) { ledger := L }
    { ledger := final.ledger
      matched := final.matched
      unmatched := final.unmatched
      remoteCalls := ld.2
      filesWritten :=
        if env.dryRun then []
        else env.statePath :: final.queue.map (·.1) }

/-! ## Bluesky post text (atproto.ts `createBlueskyPost`,
`countGraphemes`, `truncateToGraphemes`)

A string is modelled as the list of its grapheme clusters (the
`Intl.Segmenter` segmentation the source iterates over), one `Char` per
cluster, so `countGraphemes` is `List.length`, concatenation of the
source's building blocks is `++`, and cluster-respecting truncation is
`List.take`. -/

/-- JS `Array.prototype.slice(0, e)` with a possibly negative end index. -/
def jsSliceTo (s : List Char) (e : Int) : List Char :=
  if 0 ≤ e then s.take e.toNat
  else s.take ((s.length : Int) + e).toNat

/-- The ellipsis marker `...` appended by truncation (three one-cluster
graphemes). -/
def ellipsisMarker : List Char := ['.', '.', '.']

/-- Model of `truncateToGraphemes(str, maxGraphemes)`: a string within the
budget
is returned unchanged; otherwise the first `max − 3` clusters plus the
ellipsis marker. -/
def truncateToGraphemes (s : List Char) (mx : Int) : List Char :=
  if (s.length : Int) ≤ mx then s
  else jsSliceTo s (mx - 3) ++ ellipsisMarker

/-- The 300-grapheme Bluesky budget. -/
def MAX_GRAPHEMES : Int := 300

/-- The text assembled before the final safety truncation: title,
optionally a (truncated) description, and the canonical URL joined with
blank lines. -/
def bskyTextStepOne (title : List Char) (description : Option (List Char))
    (canonicalUrl : List Char) : List Char :=
  let urlPart := '\n' :: '\n' :: canonicalUrl
  let descTruthy := match description with
    | some d => !d.isEmpty
    | none => false
  if descTruthy then
    let d := description.getD []
    let fullText := title ++ '\n' :: '\n' :: d ++ urlPart
    if (fullText.length : Int) ≤ MAX_GRAPHEMES then fullText
    else
      let availableForDesc : Int :=
        MAX_GRAPHEMES - title.length - 2 - urlPart.length - 2
      if availableForDesc > 10 then
        title ++ '\n' :: '\n' :: truncateToGraphemes d availableForDesc
          ++ urlPart
      else title ++ urlPart
  else title ++ urlPart

/-- The final post text of `createBlueskyPost`: the assembled text,
truncated to the 300-grapheme budget when it still exceeds it (the
"safety check" of the source). -/
def bskyPostText (title : List Char) (description : Option (List Char))
    (canonicalUrl : List Char) : List Char :=
  let t := bskyTextStepOne title description canonicalUrl
  if (t.length : Int) > MAX_GRAPHEMES then truncateToGraphemes t MAX_GRAPHEMES
  else t

/-- Suffix test on character lists. -/
def isSuffixL (pat s : List Char) : Bool :=
  startsWithL pat.reverse s.reverse

/-! ## Lemmas about the publish execution fold -/

theorem publishedPost_path (env : PublishEnv) (p : PubPost) (a : PubAction) :
    (publishedPost env p a).path = p.path := by
  cases a <;> rfl

theorem publishedPost_draft (env : PublishEnv) (p : PubPost) (a : PubAction) :
    (publishedPost env p a).draft = p.draft := by
  cases a <;> rfl

theorem publishEntry_contentHash (env : PublishEnv) (ex : Option StrongRef)
    (p : PubPost) (a : PubAction) :
    (publishEntry env ex p a).contentHash
      = env.hash (publishedPost env p a).rawContent := by
  cases a <;> rfl

/-- One loop iteration does not touch another post's ledger entry or
file. -/
theorem execStep_frame (env : PublishEnv) (s : ExecState)
    (pa : PubPost × PubAction) (k : String) (h : pa.1.path ≠ k) :
    (execStep env s pa).ledger k = s.ledger k ∧
    (execStep env s pa).updated k = s.updated k := by
  constructor
  · simp only [execStep]
    split
    · rfl
    · simp only [execPost]
      split
      · rfl
      · simp only [setEntry]
        rw [if_neg]
        exact fun hk => h hk.symm
  · simp only [execStep]
    split
    · rfl
    · simp only
      rw [if_neg]
      exact fun hk => h hk.symm

/-- A key not owned by any processed post is untouched by the execution
fold, in both the ledger and the on-disk map. -/
theorem execAll_frame (env : PublishEnv) (l : List (PubPost × PubAction))
    (s : ExecState) (k : String) (h : ∀ pa ∈ l, pa.1.path ≠ k) :
    (execAll env s l).ledger k = s.ledger k ∧
    (execAll env s l).updated k = s.updated k := by
  induction l generalizing s with
  | nil => exact ⟨rfl, rfl⟩
  | cons pa rest ih =>
    have hpa : pa.1.path ≠ k := h pa (List.mem_cons_self _ _)
    have hrest : ∀ q ∈ rest, q.1.path ≠ k :=
      fun q hq => h q (List.mem_cons_of_mem _ hq)
    have step := ih (execStep env s pa) hrest
    have base := execStep_frame env s pa k hpa
    rw [execAll, List.foldl_cons, ← execAll]
    exact ⟨step.1.trans base.1, step.2.trans base.2⟩

/-- The error counter of the fold counts exactly the posts whose remote
document write throws. -/
theorem execAll_errorCount (env : PublishEnv) (l : List (PubPost × PubAction))
    (s : ExecState) :
    (execAll env s l).errorCount
      = s.errorCount + l.countP (fun pa => env.docWriteFails pa.1.path) := by
  induction l generalizing s with
  | nil => simp [execAll]
  | cons pa rest ih =>
    rw [execAll, List.foldl_cons, ← execAll, ih]
    by_cases hf : env.docWriteFails pa.1.path
    · simp [execStep, execPost, hf, List.countP_cons]
      omega
    · simp [execStep, execPost, hf, List.countP_cons]

/-- Published + updated counters of the fold count exactly the posts
whose document write succeeds. -/
theorem execAll_successCount (env : PublishEnv)
    (l : List (PubPost × PubAction)) (s : ExecState) :
    (execAll env s l).publishedCount + (execAll env s l).updatedCount
      = s.publishedCount + s.updatedCount
        + l.countP (fun pa => !env.docWriteFails pa.1.path) := by
  induction l generalizing s with
  | nil => simp [execAll]
  | cons pa rest ih =>
    rw [execAll, List.foldl_cons, ← execAll, ih]
    by_cases hf : env.docWriteFails pa.1.path
    · simp [execStep, execPost, hf, List.countP_cons]
    · cases ha : pa.2 <;>
        simp [execStep, execPost, hf, List.countP_cons, ha] <;> omega

/-- Per-post effect of the fold under distinct ledger paths: a failed
post leaves its ledger entry and file untouched; a successful post gets
exactly the entry of `publishEntry` (computed against the pre-run
ledger) and its file becomes the rewritten post. -/
theorem execAll_mem (env : PublishEnv) (l : List (PubPost × PubAction))
    (s : ExecState) (hN : (l.map (fun pa => pa.1.path)).Nodup)
    (pa : PubPost × PubAction) (hmem : pa ∈ l) :
    (env.docWriteFails pa.1.path = true →
      (execAll env s l).ledger pa.1.path = s.ledger pa.1.path ∧
      (execAll env s l).updated pa.1.path = s.updated pa.1.path) ∧
    (env.docWriteFails pa.1.path = false →
      (execAll env s l).ledger pa.1.path
        = some (publishEntry env ((s.ledger pa.1.path).bind (·.bskyPostRef))
            pa.1 pa.2) ∧
      (execAll env s l).updated pa.1.path
        = some (publishedPost env pa.1 pa.2)) := by
  induction l generalizing s with
  | nil => cases hmem
  | cons hd rest ih =>
    simp only [List.map_cons, List.nodup_cons] at hN
    rcases List.mem_cons.mp hmem with rfl | hmem'
    · -- pa is the head; the rest never touches its path
      have hfr : ∀ q ∈ rest, q.1.path ≠ pa.1.path := by
        intro q hq hqp
        exact hN.1 (hqp ▸ List.mem_map_of_mem _ hq)
      have frame := execAll_frame env rest (execStep env s pa) pa.1.path hfr
      rw [execAll, List.foldl_cons, ← execAll]
      refine ⟨fun hf => ?_, fun hf => ?_⟩
      · rw [frame.1, frame.2]
        simp [execStep, execPost, hf]
      · rw [frame.1, frame.2]
        simp [execStep, execPost, hf, setEntry]
    · -- pa is in the tail; the head does not touch pa's path
      have hne : hd.1.path ≠ pa.1.path := by
        intro hp
        exact hN.1 (hp ▸ List.mem_map_of_mem _ hmem')
      have base := execStep_frame env s hd pa.1.path hne
      have tail := ih (execStep env s hd) hN.2 hmem'
      rw [execAll, List.foldl_cons, ← execAll]
      rw [base.1, base.2] at tail
      exact tail
/-! ## Lemmas about classification -/

theorem classifyPost_draft (force : Bool) (hash : String → String)
    (L : Ledger) (p : PubPost) (h : p.draft = true) :
    classifyPost force hash L p = .skipDraft := by
  simp [classifyPost, h]

theorem classifyPost_upToDate (hash : String → String) (L : Ledger)
    (p : PubPost) (hd : p.draft = false) (st : PostState)
    (hst : L p.path = some st) (hh : st.contentHash = hash p.rawContent) :
    classifyPost false hash L p = .upToDate := by
  simp [classifyPost, hd, hst, hh]

theorem mem_postsToPublish (force : Bool) (hash : String → String)
    (L : Ledger) (posts : List PubPost) (p : PubPost) (a : PubAction) :
    (p, a) ∈ postsToPublish force hash L posts ↔
      p ∈ posts ∧ classifyPost force hash L p = .toPublish a := by
  constructor
  · intro h
    obtain ⟨q, hq, hfq⟩ := List.mem_filterMap.mp h
    cases hc : classifyPost force hash L q <;> rw [hc] at hfq <;>
      simp only [Option.some.injEq, Prod.mk.injEq, reduceCtorEq] at hfq
    obtain ⟨rfl, rfl⟩ := hfq
    exact ⟨hq, hc⟩
  · rintro ⟨hmem, hc⟩
    exact List.mem_filterMap.mpr ⟨p, hmem, by rw [hc]⟩

theorem postsToPublish_fst_sublist (force : Bool) (hash : String → String)
    (L : Ledger) (posts : List PubPost) :
    ((postsToPublish force hash L posts).map (·.1)).Sublist posts := by
  induction posts with
  | nil => simp [postsToPublish]
  | cons p rest ih =>
    simp only [postsToPublish, List.filterMap_cons]
    cases hc : classifyPost force hash L p
    · exact ih.cons p
    · simpa using ih.cons₂ p
    · exact ih.cons p

theorem postsToPublish_paths_nodup (force : Bool) (hash : String → String)
    (L : Ledger) (posts : List PubPost)
    (hN : (posts.map (·.path)).Nodup) :
    ((postsToPublish force hash L posts).map (fun pa => pa.1.path)).Nodup := by
  have h1 : (postsToPublish force hash L posts).map (fun pa => pa.1.path)
      = ((postsToPublish force hash L posts).map (·.1)).map (·.path) := by
    rw [List.map_map]; rfl
  rw [h1]
  exact hN.sublist ((postsToPublish_fst_sublist force hash L posts).map _)

/-- In a path-distinct scan, a classified pair whose post shares a path
with `p ∈ posts` is `p` itself. -/
theorem postsToPublish_path_inj (force : Bool) (hash : String → String)
    (L : Ledger) (posts : List PubPost) (hN : (posts.map (·.path)).Nodup)
    (p : PubPost) (hp : p ∈ posts) (pa : PubPost × PubAction)
    (hpa : pa ∈ postsToPublish force hash L posts)
    (hpath : pa.1.path = p.path) : pa.1 = p := by
  have hmem : pa.1 ∈ posts := by
    have := (mem_postsToPublish force hash L posts pa.1 pa.2).mp (by
      simpa using hpa)
    exact this.1
  exact List.inj_on_of_nodup_map hN hmem hp hpath

theorem classifyPost_toPublish_draft (force : Bool) (hash : String → String)
    (L : Ledger) (p : PubPost) (a : PubAction)
    (h : classifyPost force hash L p = .toPublish a) : p.draft = false := by
  by_cases hd : p.draft
  · rw [classifyPost_draft force hash L p hd] at h; cases h
  · simpa using hd

theorem classifyPost_upToDate_inv (force : Bool) (hash : String → String)
    (L : Ledger) (p : PubPost) (h : classifyPost force hash L p = .upToDate) :
    p.draft = false ∧
      ∃ st, L p.path = some st ∧ st.contentHash = hash p.rawContent := by
  have hd : p.draft = false := by
    by_cases hd : p.draft
    · rw [classifyPost_draft force hash L p hd] at h; cases h
    · simpa using hd
  refine ⟨hd, ?_⟩
  unfold classifyPost at h
  rw [hd] at h
  simp only [Bool.false_eq_true, if_false] at h
  split at h
  · cases h
  · split at h
    · cases h
    · rename_i st hst
      split at h
      · cases h
      · rename_i hne
        exact ⟨st, hst, by by_contra hc; exact hne hc⟩

/-- The ledger entry a post's path holds after the run, as a function of
its classification against the pre-run ledger. -/
def resolvedEntry (env : PublishEnv) (L : Ledger) (p : PubPost) :
    Option PostState :=
  match classifyPost env.force env.hash L p with
  | .toPublish a =>
    if env.docWriteFails p.path then L p.path
    else some (publishEntry env ((L p.path).bind (·.bskyPostRef)) p a)
  | _ => L p.path

/-- The post as it is on disk after the run. -/
def resolvedPost (env : PublishEnv) (L : Ledger) (p : PubPost) : PubPost :=
  match classifyPost env.force env.hash L p with
  | .toPublish a =>
    if env.docWriteFails p.path then p else publishedPost env p a
  | _ => p

/-- A path-distinct run resolves every scanned post to `resolvedEntry` /
`resolvedPost`. -/
theorem runPublish_char (env : PublishEnv) (posts : List PubPost)
    (L0 : Ledger) (hN : (posts.map (·.path)).Nodup)
    (p : PubPost) (hp : p ∈ posts) :
    (runPublish env posts L0).ledger p.path = resolvedEntry env L0 p ∧
    ((execAll env { ledger := L0, updated := fun _ => none }
        (postsToPublish env.force env.hash L0 posts)).updated p.path).getD p
      = resolvedPost env L0 p := by
  have hN' := postsToPublish_paths_nodup env.force env.hash L0 posts hN
  cases hc : classifyPost env.force env.hash L0 p with
  | toPublish a =>
    have hmem := (mem_postsToPublish env.force env.hash L0 posts p a).mpr
      ⟨hp, hc⟩
    have := execAll_mem env (postsToPublish env.force env.hash L0 posts)
      { ledger := L0, updated := fun _ => none } hN' (p, a) hmem
    by_cases hf : env.docWriteFails p.path
    · have h1 := (this.1 hf)
      refine ⟨?_, ?_⟩
      · rw [runPublish]
        simpa [resolvedEntry, hc, hf] using h1.1
      · simp only [resolvedPost, hc, hf, if_true]
        rw [h1.2]
        rfl
    · have h1 := (this.2 (by simpa using hf))
      refine ⟨?_, ?_⟩
      · rw [runPublish]
        simpa [resolvedEntry, hc, hf] using h1.1
      · simp only [resolvedPost, hc, hf, if_false]
        rw [h1.2]
        rfl
  | skipDraft =>
    have hfr : ∀ pa ∈ postsToPublish env.force env.hash L0 posts,
        pa.1.path ≠ p.path := by
      intro pa hpa hpath
      have heq := postsToPublish_path_inj env.force env.hash L0 posts hN p hp
        pa hpa hpath
      have hmp := (mem_postsToPublish env.force env.hash L0 posts pa.1 pa.2).mp
        (by simpa using hpa)
      have h2 := hmp.2
      rw [heq, hc] at h2
      cases h2
    have frame := execAll_frame env (postsToPublish env.force env.hash L0 posts)
      { ledger := L0, updated := fun _ => none } p.path hfr
    refine ⟨?_, ?_⟩
    · rw [runPublish]
      simpa [resolvedEntry, hc] using frame.1
    · simp only [resolvedPost, hc]
      rw [frame.2]
      rfl
  | upToDate =>
    have hfr : ∀ pa ∈ postsToPublish env.force env.hash L0 posts,
        pa.1.path ≠ p.path := by
      intro pa hpa hpath
      have heq := postsToPublish_path_inj env.force env.hash L0 posts hN p hp
        pa hpa hpath
      have hmp := (mem_postsToPublish env.force env.hash L0 posts pa.1 pa.2).mp
        (by simpa using hpa)
      have h2 := hmp.2
      rw [heq, hc] at h2
      cases h2
    have frame := execAll_frame env (postsToPublish env.force env.hash L0 posts)
      { ledger := L0, updated := fun _ => none } p.path hfr
    refine ⟨?_, ?_⟩
    · rw [runPublish]
      simpa [resolvedEntry, hc] using frame.1
    · simp only [resolvedPost, hc]
      rw [frame.2]
      rfl

/-- Membership form of `runPublish`'s post list. -/
theorem runPublish_posts_mem (env : PublishEnv) (posts : List PubPost)
    (L0 : Ledger) (hN : (posts.map (·.path)).Nodup) (q : PubPost)
    (hq : q ∈ (runPublish env posts L0).posts) :
    ∃ p ∈ posts, q = resolvedPost env L0 p := by
  rw [runPublish] at hq
  simp only [List.mem_map] at hq
  obtain ⟨p, hp, hpq⟩ := hq
  exact ⟨p, hp, by rw [← hpq, (runPublish_char env posts L0 hN p hp).2]⟩

/-- Every resolved post classifies as draft-skip or up-to-date against
the post-run ledger when no document write failed. -/
theorem resolvedPost_classify (env : PublishEnv) (posts : List PubPost)
    (L0 : Ledger) (hN : (posts.map (·.path)).Nodup)
    (hOk : ∀ s, env.docWriteFails s = false) (p : PubPost) (hp : p ∈ posts) :
    classifyPost false env.hash (runPublish env posts L0).ledger
        (resolvedPost env L0 p) = .skipDraft ∨
    classifyPost false env.hash (runPublish env posts L0).ledger
        (resolvedPost env L0 p) = .upToDate := by
  have hled := (runPublish_char env posts L0 hN p hp).1
  cases hc : classifyPost env.force env.hash L0 p with
  | skipDraft =>
    left
    have hd : p.draft = true := by
      by_cases hd : p.draft
      · exact hd
      · exfalso
        have hd' : p.draft = false := by simpa using hd
        unfold classifyPost at hc
        rw [hd'] at hc
        simp only [Bool.false_eq_true, if_false] at hc
        split at hc
        · cases hc
        · split at hc
          · cases hc
          · split at hc <;> cases hc
    rw [resolvedPost, hc]
    exact classifyPost_draft _ _ _ _ hd
  | upToDate =>
    right
    obtain ⟨hd, st, hst, hh⟩ := classifyPost_upToDate_inv _ _ _ _ hc
    rw [resolvedPost, hc]
    refine classifyPost_upToDate env.hash _ p hd st ?_ hh
    rw [hled, resolvedEntry, hc]
    exact hst
  | toPublish a =>
    right
    have hd := classifyPost_toPublish_draft _ _ _ _ _ hc
    simp only [resolvedPost, hc, hOk p.path, Bool.false_eq_true, if_false]
    refine classifyPost_upToDate env.hash _ _ ?_
      (publishEntry env ((L0 p.path).bind (·.bskyPostRef)) p a) ?_ ?_
    · rw [publishedPost_draft]; exact hd
    · rw [publishedPost_path, hled]
      simp only [resolvedEntry, hc, hOk p.path, Bool.false_eq_true, if_false]
    · exact publishEntry_contentHash env _ p a

/-- C1 (idempotence): after a publish run in which no remote write
failed, over a path-distinct scan, a second run with the same content
classifies every post as draft-skip or up-to-date: the second run's
`postsToPublish` list is empty, it makes zero remote write calls,
reports zero errors, and changes neither the ledger nor any file; and
every non-draft post's stored fingerprint equals the fingerprint of its
current (possibly rewritten) content. -/
theorem publish_twice_is_idempotent (env : PublishEnv)
    (posts : List PubPost) (L0 : Ledger)
    (hN : (posts.map (·.path)).Nodup)
    (hOk : ∀ s, env.docWriteFails s = false) :
    postsToPublish false env.hash (runPublish env posts L0).ledger
        (runPublish env posts L0).posts = [] ∧
    (runPublish { env with force := false } (runPublish env posts L0).posts
        (runPublish env posts L0).ledger).writes = 0 ∧
    (runPublish { env with force := false } (runPublish env posts L0).posts
        (runPublish env posts L0).ledger).errorCount = 0 ∧
    (runPublish { env with force := false } (runPublish env posts L0).posts
        (runPublish env posts L0).ledger).ledger
      = (runPublish env posts L0).ledger ∧
    (runPublish { env with force := false } (runPublish env posts L0).posts
        (runPublish env posts L0).ledger).posts
      = (runPublish env posts L0).posts ∧
    (∀ q ∈ (runPublish env posts L0).posts, q.draft = false →
      ∃ st, (runPublish env posts L0).ledger q.path = some st ∧
        st.contentHash = env.hash q.rawContent) := by
  have hempty : postsToPublish false env.hash (runPublish env posts L0).ledger
      (runPublish env posts L0).posts = [] := by
    rw [postsToPublish, List.filterMap_eq_nil_iff]
    intro q hq
    obtain ⟨p, hp, rfl⟩ := runPublish_posts_mem env posts L0 hN q hq
    rcases resolvedPost_classify env posts L0 hN hOk p hp with h | h <;> rw [h]
  have hsecond : postsToPublish ({ env with force := false } : PublishEnv).force
      ({ env with force := false } : PublishEnv).hash
      (runPublish env posts L0).ledger (runPublish env posts L0).posts = [] :=
    hempty
  refine ⟨hempty, ?_, ?_, ?_, ?_, ?_⟩
  · rw [runPublish, hsecond]; rfl
  · rw [runPublish, hsecond]; rfl
  · rw [runPublish, hsecond]; rfl
  · rw [runPublish, hsecond]
    simp [execAll]
  · intro q hq hqd
    obtain ⟨p, hp, rfl⟩ := runPublish_posts_mem env posts L0 hN q hq
    rcases resolvedPost_classify env posts L0 hN hOk p hp with h | h
    · exfalso
      unfold classifyPost at h
      rw [hqd] at h
      simp only [Bool.false_eq_true, if_false] at h
      split at h
      · cases h
      · split at h <;> cases h
    · exact (classifyPost_upToDate_inv _ _ _ _ h).2

/-- Environment for the idempotence witness run: identity hash, a
rewrite that appends the identifier, a fixed new identifier, no
failures. -/
def pubWitnessEnv : PublishEnv :=
  { hash := fun s => s
    rewriteAtUri := fun c u => c ++ u
    newUri := fun _ => "at://did:plc:w/site.standard.document/1" }

/-- One new post and one draft for the idempotence witness run. -/
def pubWitnessPosts : List PubPost :=
  [{ path := "a.md", draft := false, rawContent := "hello" },
   { path := "b.md", draft := true, rawContent := "draft" }]

/-- Witness for C1 at a concrete input: the hypotheses hold and the
second run's publish list is empty with zero remote writes. -/
theorem publish_twice_is_idempotent_witness :
    (pubWitnessPosts.map (·.path)).Nodup ∧
    postsToPublish false pubWitnessEnv.hash
        (runPublish pubWitnessEnv pubWitnessPosts emptyLedger).ledger
        (runPublish pubWitnessEnv pubWitnessPosts emptyLedger).posts = [] ∧
    (runPublish { pubWitnessEnv with force := false }
        (runPublish pubWitnessEnv pubWitnessPosts emptyLedger).posts
        (runPublish pubWitnessEnv pubWitnessPosts emptyLedger).ledger).writes
      = 0 :=
  ⟨by decide,
   (publish_twice_is_idempotent pubWitnessEnv pubWitnessPosts emptyLedger
      (by decide) (fun _ => rfl)).1,
   (publish_twice_is_idempotent pubWitnessEnv pubWitnessPosts emptyLedger
      (by decide) (fun _ => rfl)).2.1⟩

/-- C2 (partial-failure isolation): over a path-distinct scan, the run's
error count is exactly the number of classified posts whose remote
document write throws; published+updated counts the rest; a failed
post's ledger entry is unchanged; a successful post's entry is exactly
the written `publishEntry`; and keys owned by no classified post are
untouched. -/
theorem publish_partial_failure_isolation (env : PublishEnv)
    (posts : List PubPost) (L0 : Ledger)
    (hN : (posts.map (·.path)).Nodup) :
    (runPublish env posts L0).errorCount
      = (postsToPublish env.force env.hash L0 posts).countP
          (fun pa => env.docWriteFails pa.1.path) ∧
    (runPublish env posts L0).publishedCount
        + (runPublish env posts L0).updatedCount
      = (postsToPublish env.force env.hash L0 posts).countP
          (fun pa => !env.docWriteFails pa.1.path) ∧
    (∀ pa ∈ postsToPublish env.force env.hash L0 posts,
      (env.docWriteFails pa.1.path = true →
        (runPublish env posts L0).ledger pa.1.path = L0 pa.1.path) ∧
      (env.docWriteFails pa.1.path = false →
        (runPublish env posts L0).ledger pa.1.path
          = some (publishEntry env ((L0 pa.1.path).bind (·.bskyPostRef))
              pa.1 pa.2))) ∧
    (∀ k, (∀ pa ∈ postsToPublish env.force env.hash L0 posts,
        pa.1.path ≠ k) →
      (runPublish env posts L0).ledger k = L0 k) := by
  have hN' := postsToPublish_paths_nodup env.force env.hash L0 posts hN
  refine ⟨?_, ?_, ?_, ?_⟩
  · rw [runPublish]
    simpa using execAll_errorCount env
      (postsToPublish env.force env.hash L0 posts)
      { ledger := L0, updated := fun _ => none }
  · rw [runPublish]
    simpa using execAll_successCount env
      (postsToPublish env.force env.hash L0 posts)
      { ledger := L0, updated := fun _ => none }
  · intro pa hpa
    have := execAll_mem env (postsToPublish env.force env.hash L0 posts)
      { ledger := L0, updated := fun _ => none } hN' pa hpa
    exact ⟨fun hf => by rw [runPublish]; exact (this.1 hf).1,
           fun hf => by rw [runPublish]; exact (this.2 hf).1⟩
  · intro k hk
    rw [runPublish]
    exact (execAll_frame env (postsToPublish env.force env.hash L0 posts)
      { ledger := L0, updated := fun _ => none } k hk).1

/-- Environment for the partial-failure witness: the middle post's
document write throws. -/
def failWitnessEnv : PublishEnv :=
  { hash := fun s => s
    rewriteAtUri := fun c u => c ++ u
    newUri := fun _ => "at://did:plc:w/site.standard.document/2"
    docWriteFails := fun p => p = "b.md" }

/-- Three new posts; the second one's remote call will throw. -/
def failWitnessPosts : List PubPost :=
  [{ path := "a.md", draft := false, rawContent := "one" },
   { path := "b.md", draft := false, rawContent := "two" },
   { path := "c.md", draft := false, rawContent := "three" }]

/-- Witness for C2 at a concrete input: with three posts whose second
remote write throws, the error count is 1, two posts complete, and the
failed post's entry stays absent. -/
theorem publish_partial_failure_isolation_witness :
    (failWitnessPosts.map (·.path)).Nodup ∧
    (runPublish failWitnessEnv failWitnessPosts emptyLedger).errorCount
      = (postsToPublish failWitnessEnv.force failWitnessEnv.hash emptyLedger
          failWitnessPosts).countP
          (fun pa => failWitnessEnv.docWriteFails pa.1.path) ∧
    (runPublish failWitnessEnv failWitnessPosts emptyLedger).errorCount = 1 ∧
    (runPublish failWitnessEnv failWitnessPosts emptyLedger).publishedCount
        + (runPublish failWitnessEnv failWitnessPosts emptyLedger).updatedCount
      = 2 ∧
    (runPublish failWitnessEnv failWitnessPosts emptyLedger).ledger "b.md"
      = none :=
  ⟨by decide,
   (publish_partial_failure_isolation failWitnessEnv failWitnessPosts
      emptyLedger (by decide)).1,
   by decide, by decide, by decide⟩

/-- C3 (drafts always skipped): a scanned post whose draft flag is true
always classifies as `skip-draft`, lands in the draft list, and never
appears in the publish list, for every ledger, force flag and hash. -/
theorem draft_posts_always_skipped (force : Bool) (hash : String → String)
    (L : Ledger) (posts : List PubPost) (p : PubPost)
    (hd : p.draft = true) :
    classifyPost force hash L p = .skipDraft ∧
    (∀ a, (p, a) ∉ postsToPublish force hash L posts) ∧
    (p ∈ posts → p ∈ draftPosts posts) := by
  refine ⟨classifyPost_draft force hash L p hd, ?_, ?_⟩
  · intro a hmem
    have := (mem_postsToPublish force hash L posts p a).mp hmem
    rw [classifyPost_draft force hash L p hd] at this
    cases this.2
  · intro hp
    simp [draftPosts, List.mem_filter, hp, hd]

/-- Witness for C3 at a concrete input: a draft post with a stale ledger
entry and the force flag set is still skipped. -/
theorem draft_posts_always_skipped_witness :
    (({ path := "d.md", draft := true, rawContent := "x" } : PubPost).draft
        = true) ∧
    classifyPost true (fun s => s)
        (setEntry emptyLedger "d.md" { contentHash := "stale" })
        { path := "d.md", draft := true, rawContent := "x" }
      = Classified.skipDraft :=
  ⟨by decide,
   (draft_posts_always_skipped true (fun s => s)
      (setEntry emptyLedger "d.md" { contentHash := "stale" }) []
      { path := "d.md", draft := true, rawContent := "x" } (by decide)).1⟩

/-- C6 (loadState is total): for every root directory (file contents
oracle) and JSON parser behaviour, `loadState` returns `ok`: the parsed
mapping when the ledger file exists and parses, and the empty mapping
when the file is missing or fails to parse — it never propagates an
error. -/
theorem loadState_total_never_throws (file : Option String)
    (parseJson : String → Except String Ledger) :
    (∃ st, loadState file parseJson = .ok st) ∧
    (file = none → loadState file parseJson = .ok emptyLedger) ∧
    (∀ c, file = some c →
      ((∃ st, parseJson c = .ok st) →
        loadState file parseJson = parseJson c) ∧
      ((∃ e, parseJson c = .error e) →
        loadState file parseJson = .ok emptyLedger)) := by
  refine ⟨?_, ?_, ?_⟩
  · cases file with
    | none => exact ⟨emptyLedger, rfl⟩
    | some c =>
      cases hp : parseJson c with
      | ok st => exact ⟨st, by simp [loadState, hp]⟩
      | error e => exact ⟨emptyLedger, by simp [loadState, hp]⟩
  · rintro rfl; rfl
  · rintro c rfl
    constructor
    · rintro ⟨st, hst⟩
      simp [loadState, hst]
    · rintro ⟨e, he⟩
      simp [loadState, he]

/-- Witness for C6 at concrete inputs: a present-but-corrupt ledger file
degrades to the empty mapping. -/
theorem loadState_total_never_throws_witness :
    ((some "corrupt" : Option String) = some "corrupt") ∧
    loadState (some "corrupt") (fun _ => .error "SyntaxError")
      = .ok emptyLedger :=
  ⟨rfl,
   ((loadState_total_never_throws (some "corrupt")
      (fun _ => .error "SyntaxError")).2.2 "corrupt" rfl).2
     ⟨"SyntaxError", rfl⟩⟩

/-! ## C8: leading slash of resolved document paths -/

/-- Counterexample to C8 as stated: with no path template and the
configured path prefix `"blog"` (no leading slash), `resolvePostPath`
returns `blog/x`, which does not begin with `/`. -/
theorem resolvePostPath_missing_slash_cex :
    (resolvePostPath
        { slug := ['x'], frontmatter := {}, rawAssigns := [] }
        (some ['b','l','o','g']) none
        ⟨fun _ => ([], [], [])⟩).head? ≠ some '/' := by
  decide

/-- C8 (amended): a truthy path template always yields a path with a
leading slash (the template resolver forces one); under prefix+slug
composition the result starts with the effective prefix
(`pathPrefix || "/posts"`), so it begins with `/` exactly when the
configured prefix does (as the default `/posts` does). -/
theorem resolvePostPath_leading_slash (p : PathPost)
    (pref tpl : Option (List Char)) (d : DateOracle) :
    (truthyStrOpt tpl = true →
      (resolvePostPath p pref tpl d).head? = some '/') ∧
    (truthyStrOpt tpl = false →
      (resolvePostPath p pref tpl d).head?
        = (effectivePathPref pref).head? ∧
      (startsWithL ['/'] (effectivePathPref pref) = true →
        (resolvePostPath p pref tpl d).head? = some '/')) := by
  constructor
  · intro ht
    rw [resolvePostPath, if_pos ht, resolvePathTemplate]
    split
    · rename_i hs
      cases hr : replaceFieldToks p.rawAssigns _ with
      | nil => rw [hr] at hs; cases hs
      | cons c rest =>
        rw [hr] at hs
        simp only [startsWithL, Bool.and_eq_true, decide_eq_true_eq] at hs
        simp [← hs.1]
    · rfl
  · intro ht
    rw [resolvePostPath, if_neg (by simp [ht])]
    have hne : effectivePathPref pref ≠ [] := by
      cases pref with
      | none => simp [effectivePathPref]
      | some v =>
        simp only [effectivePathPref]
        split
        · simp
        · rename_i hv
          simpa using hv
    constructor
    · cases hp : effectivePathPref pref with
      | nil => exact absurd hp hne
      | cons c rest => simp [hp]
    · intro hs
      cases hp : effectivePathPref pref with
      | nil => exact absurd hp hne
      | cons c rest =>
        rw [hp] at hs
        simp only [startsWithL, Bool.and_eq_true, decide_eq_true_eq] at hs
        simp [hp, ← hs.1]

/-- Witness for C8's amended statement at concrete inputs: both a truthy
template and the default prefix produce a leading slash. -/
theorem resolvePostPath_leading_slash_witness :
    truthyStrOpt (some (mkTok ['s','l','u','g'])) = true ∧
    (resolvePostPath { slug := ['x'], frontmatter := {}, rawAssigns := [] }
        none (some (mkTok ['s','l','u','g']))
        ⟨fun _ => ([], [], [])⟩).head? = some '/' ∧
    (resolvePostPath { slug := ['x'], frontmatter := {}, rawAssigns := [] }
        none none ⟨fun _ => ([], [], [])⟩).head? = some '/' :=
  ⟨by decide,
   (resolvePostPath_leading_slash
      { slug := ['x'], frontmatter := {}, rawAssigns := [] }
      none (some (mkTok ['s','l','u','g'])) ⟨fun _ => ([], [], [])⟩).1
      (by decide),
   ((resolvePostPath_leading_slash
      { slug := ['x'], frontmatter := {}, rawAssigns := [] }
      none none ⟨fun _ => ([], [], [])⟩).2 (by decide)).2 (by decide)⟩

/-! ## C9: Bluesky post text budget and URL preservation -/

theorem isSuffixL_append (u x : List Char) : isSuffixL u (x ++ u) = true := by
  rw [isSuffixL, List.reverse_append]
  exact startsWithL_append_self u.reverse x.reverse

theorem isSuffixL_urlPart (u t : List Char) :
    isSuffixL u (t ++ '\n' :: '\n' :: u) = true := by
  have h : t ++ '\n' :: '\n' :: u = (t ++ ['\n', '\n']) ++ u := by simp
  rw [h]
  exact isSuffixL_append u _

theorem isSuffixL_joined (u t mid : List Char) :
    isSuffixL u (t ++ ('\n' :: '\n' :: mid) ++ '\n' :: '\n' :: u) = true := by
  have h : t ++ ('\n' :: '\n' :: mid) ++ '\n' :: '\n' :: u
      = ((t ++ ('\n' :: '\n' :: mid) ++ ['\n', '\n'])) ++ u := by simp
  rw [h]
  exact isSuffixL_append u _

/-- Every branch of the assembled (pre-safety-truncation) text ends with
the canonical URL. -/
theorem bskyTextStepOne_url_suffix (title : List Char)
    (description : Option (List Char)) (canonicalUrl : List Char) :
    isSuffixL canonicalUrl (bskyTextStepOne title description canonicalUrl)
      = true := by
  unfold bskyTextStepOne
  dsimp only
  split
  · split
    · exact isSuffixL_joined _ _ _
    · split
      · exact isSuffixL_joined _ _ _
      · exact isSuffixL_urlPart _ _
  · exact isSuffixL_urlPart _ _

/-- Counterexample to C9 as stated: a 299-grapheme title with no
description and the one-grapheme URL `u` assembles to 302 graphemes, so
the final safety truncation fires and the canonical URL does not appear
(intact or otherwise) at the end of the final text. -/
theorem bskyPostText_url_lost_cex :
    isSuffixL ['u']
        (bskyPostText (List.replicate 299 'a') none ['u']) = false := by
  set_option maxRecDepth 100000 in decide

/-- C9 (amended): the final text never exceeds 300 graphemes and is
either the assembled text or its cluster-aligned 297-grapheme cut plus
the three-dot marker (truncation never splits a cluster: it is
`List.take` on the cluster list); the canonical URL appears intact at
the end whenever the assembled text itself fits in the 300-grapheme
budget — but not necessarily once the final safety truncation fires. -/
theorem bskyPostText_budget (title : List Char)
    (description : Option (List Char)) (canonicalUrl : List Char) :
    ((bskyPostText title description canonicalUrl).length : Int)
        ≤ MAX_GRAPHEMES ∧
    (bskyPostText title description canonicalUrl
        = bskyTextStepOne title description canonicalUrl ∨
      bskyPostText title description canonicalUrl
        = jsSliceTo (bskyTextStepOne title description canonicalUrl) 297
            ++ ellipsisMarker) ∧
    (((bskyTextStepOne title description canonicalUrl).length : Int)
        ≤ MAX_GRAPHEMES →
      isSuffixL canonicalUrl (bskyPostText title description canonicalUrl)
        = true) := by
  refine ⟨?_, ?_, ?_⟩
  · unfold bskyPostText
    dsimp only
    split
    · rename_i hlong
      unfold truncateToGraphemes
      rw [if_neg (by omega)]
      unfold MAX_GRAPHEMES at hlong ⊢
      have h297 : (jsSliceTo (bskyTextStepOne title description canonicalUrl)
          ((300 : Int) - 3)).length ≤ 297 := by
        unfold jsSliceTo
        rw [if_pos (by omega)]
        calc (List.take (((300 : Int) - 3).toNat)
              (bskyTextStepOne title description canonicalUrl)).length
            ≤ ((300 : Int) - 3).toNat := List.length_take_le _ _
          _ ≤ 297 := by omega
      simp only [List.length_append, ellipsisMarker, List.length_cons,
        List.length_nil]
      omega
    · rename_i hshort
      unfold MAX_GRAPHEMES at hshort ⊢
      omega
  · unfold bskyPostText
    dsimp only
    split
    · right
      unfold truncateToGraphemes
      rename_i hlong
      rw [if_neg (by omega)]
      norm_num [MAX_GRAPHEMES]
    · left; rfl
  · intro hfit
    unfold bskyPostText
    dsimp only
    rw [if_neg (by omega)]
    exact bskyTextStepOne_url_suffix title description canonicalUrl

/-- Witness for C9's amended statement at a concrete input where the
assembled text fits: the URL survives at the end. -/
theorem bskyPostText_budget_witness :
    ((bskyTextStepOne ['T'] (some ['d']) ['u','r','l']).length : Int)
        ≤ MAX_GRAPHEMES ∧
    isSuffixL ['u','r','l'] (bskyPostText ['T'] (some ['d']) ['u','r','l'])
      = true :=
  ⟨by decide,
   (bskyPostText_budget ['T'] (some ['d']) ['u','r','l']).2.2 (by decide)⟩

/-! ## C5: missing metadata block is the only parse error -/

/-- The claim's notion of a well-formed metadata block: one of the three
delimiters on the first line and a matching closing delimiter line. -/
def HasMetadataBlock (c : List Char) : Prop :=
  ∃ d fm body, d ∈ fmDelims ∧
    c = d ++ ['\n'] ++ fm ++ ['\n'] ++ d ++ ['\n'] ++ body

theorem detectDelim_sound (c d : List Char) (h : detectDelim c = some d) :
    d ∈ fmDelims ∧ ∃ t, c = d ++ ['\n'] ++ t := by
  unfold detectDelim at h
  split_ifs at h with h1 h2 h3 <;>
    simp only [Option.some.injEq] at h
  · subst h
    obtain ⟨t, ht⟩ := (startsWithL_iff_eq_append _ _).mp h1
    exact ⟨by simp [fmDelims], t, by simpa using ht⟩
  · subst h
    obtain ⟨t, ht⟩ := (startsWithL_iff_eq_append _ _).mp h2
    exact ⟨by simp [fmDelims], t, by simpa using ht⟩
  · subst h
    obtain ⟨t, ht⟩ := (startsWithL_iff_eq_append _ _).mp h3
    exact ⟨by simp [fmDelims], t, by simpa using ht⟩

theorem fmDelims_length (d : List Char) (hd : d ∈ fmDelims) :
    d.length = 3 := by
  simp only [fmDelims, List.mem_cons, List.not_mem_nil, or_false] at hd
  rcases hd with rfl | rfl | rfl <;> rfl

theorem matchFrontmatter_sound (c d fm body : List Char)
    (h : matchFrontmatter c = some (d, fm, body)) : HasMetadataBlock c := by
  unfold matchFrontmatter at h
  cases hdet : detectDelim c with
  | none => rw [hdet] at h; cases h
  | some d' =>
    rw [hdet] at h
    dsimp only at h
    cases hsplit : splitOnFirst ('\n' :: (d' ++ ['\n'])) (c.drop 4) with
    | none => rw [hsplit] at h; cases h
    | some pr =>
      obtain ⟨fm', body'⟩ := pr
      rw [hsplit] at h
      simp only [Option.some.injEq, Prod.mk.injEq] at h
      obtain ⟨hmem, t, ht⟩ := detectDelim_sound c d' hdet
      have hlen : (d' ++ ['\n']).length = 4 := by
        simp [fmDelims_length d' hmem]
      have hdrop : c.drop 4 = t := by
        rw [ht, ← hlen, List.drop_left]
      have hsp := splitOnFirst_sound _ _ _ _ hsplit
      rw [hdrop] at hsp
      refine ⟨d', fm', body', hmem, ?_⟩
      rw [ht, hsp]
      simp

theorem matchFrontmatter_complete (c : List Char) (h : HasMetadataBlock c) :
    (matchFrontmatter c).isSome = true := by
  obtain ⟨d, fm, body, hmem, rfl⟩ := h
  simp only [fmDelims, List.mem_cons, List.not_mem_nil, or_false] at hmem
  have key : ∀ d', d' ∈ fmDelims →
      detectDelim (d' ++ ['\n'] ++ fm ++ ['\n'] ++ d' ++ ['\n'] ++ body)
        = some d' →
      (matchFrontmatter
        (d' ++ ['\n'] ++ fm ++ ['\n'] ++ d' ++ ['\n'] ++ body)).isSome
        = true := by
    intro d' hmem' hdet
    unfold matchFrontmatter
    rw [hdet]
    dsimp only
    have hlen : (d' ++ ['\n']).length = 4 := by
      simp [fmDelims_length d' hmem']
    have hdrop : (d' ++ ['\n'] ++ fm ++ ['\n'] ++ d' ++ ['\n'] ++ body).drop 4
        = fm ++ ('\n' :: (d' ++ ['\n'])) ++ body := by
      rw [show d' ++ ['\n'] ++ fm ++ ['\n'] ++ d' ++ ['\n'] ++ body
          = (d' ++ ['\n']) ++ (fm ++ ('\n' :: (d' ++ ['\n'])) ++ body) by simp,
        ← hlen, List.drop_left]
    rw [hdrop]
    obtain ⟨pr, hsp⟩ := Option.isSome_iff_exists.mp
      (splitOnFirst_complete ('\n' :: (d' ++ ['\n'])) fm body)
    rw [hsp]
    simp
  rcases hmem with rfl | rfl | rfl
  · exact key _ (by simp [fmDelims]) (by
      unfold detectDelim
      rw [if_pos]
      exact startsWithL_append_self ['-','-','-','\n'] _)
  · refine key _ (by simp [fmDelims]) ?_
    unfold detectDelim
    rw [if_neg (by simp [startsWithL]), if_pos]
    exact startsWithL_append_self ['+','+','+','\n'] _
  · refine key _ (by simp [fmDelims]) ?_
    unfold detectDelim
    rw [if_neg (by simp [startsWithL]), if_neg (by simp [startsWithL]),
      if_pos]
    exact startsWithL_append_self ['*','*','*','\n'] _

/-- C5 (missing metadata block is the only parse error, caught
per-file): `parseFrontmatter` throws exactly on contents with no
well-formed metadata block; the scanner's result is a permutation of the
per-file outcomes (`scanOne`, which drops ignored files and files whose
parse throws, and keeps every other file), so one malformed file never
aborts the scan and every returned post parsed successfully. -/
theorem parse_error_only_missing_block :
    (∀ (c : List Char) (m : FrontmatterMapping),
      parseFrontmatter c m = none ↔ ¬ HasMetadataBlock c) ∧
    (∀ (env : ScanEnv) (files : List (List Char × List Char)),
      (scanContentDirectory env files).Perm
        (files.filterMap (fun fc => scanOne env fc.1 fc.2))) ∧
    (∀ (env : ScanEnv) (files : List (List Char × List Char)),
      ∀ p ∈ scanContentDirectory env files,
        (parseFrontmatter p.rawContent env.mapping).isSome = true) := by
  have hmatch : ∀ (c : List Char) (m : FrontmatterMapping),
      parseFrontmatter c m = none ↔ matchFrontmatter c = none := by
    intro c m
    unfold parseFrontmatter
    cases hm : matchFrontmatter c with
    | none => simp
    | some r =>
      obtain ⟨d, fm, body⟩ := r
      simp
  refine ⟨?_, ?_, ?_⟩
  · intro c m
    rw [hmatch c m]
    constructor
    · intro hnone hhas
      have := matchFrontmatter_complete c hhas
      rw [hnone] at this
      cases this
    · intro hnot
      cases hm : matchFrontmatter c with
      | none => rfl
      | some r =>
        obtain ⟨d, fm, body⟩ := r
        exact absurd (matchFrontmatter_sound c d fm body hm) hnot
  · intro env files
    exact List.mergeSort_perm _ _
  · intro env files p hp
    have hp' : p ∈ files.filterMap (fun fc => scanOne env fc.1 fc.2) :=
      (List.mergeSort_perm _ (scanSortLe env)).mem_iff.mp hp
    obtain ⟨fc, _, hfc⟩ := List.mem_filterMap.mp hp'
    unfold scanOne at hfc
    split at hfc
    · cases hfc
    · cases hpf : parseFrontmatter fc.2 env.mapping with
      | none => rw [hpf] at hfc; cases hfc
      | some r =>
        rw [hpf] at hfc
        simp only [Option.some.injEq] at hfc
        rw [← hfc]
        simp [hpf]

/-! ## C4: an unresolvable publish date is not a parse error -/

/-- The environment of the C4 scan runs: default mapping, nothing
ignored, an arbitrary date-value oracle. -/
def c4ScanEnv : ScanEnv :=
  { mapping := {}, ignores := fun _ => false, dateVal := fun _ => 0 }

/-- A file whose metadata block parses but contains no date field at
all, so its publish date is `undefined` and cannot resolve to a valid
instant. -/
def c4Content : List Char := ['-','-','-','\n','t','i','t','l','e',':',' ',
  'H','i','\n','-','-','-','\n','b','o','d','y']

/-- The post the scanner produces for `c4Content`. -/
def c4Post : ScanPost :=
  { rel := ['a','.','m','d'], slug := ['a']
    frontmatter := { title := some (.str ['H','i']) }
    content := ['b','o','d','y'], rawContent := c4Content
    rawAssigns := [(['t','i','t','l','e'], .str ['H','i'])] }

/-- Evaluation of the scan on the dateless file. -/
theorem scan_c4_eval :
    scanContentDirectory c4ScanEnv [(['a','.','m','d'], c4Content)]
      = [c4Post] := by
  unfold scanContentDirectory
  rw [show [(['a','.','m','d'], c4Content)].filterMap
      (fun fc => scanOne c4ScanEnv fc.1 fc.2) = [c4Post] from by decide]
  exact List.mergeSort_singleton c4Post

/-- Counterexample to C4 as stated: the file with an unresolvable
publish date is NOT excluded from the scan — it comes back as a scanned
post whose `publishDate` is undefined; no parse error is raised for
it. -/
theorem scan_keeps_dateless_file_cex :
    scanContentDirectory c4ScanEnv [(['a','.','m','d'], c4Content)]
        = [c4Post] ∧
    c4Post.frontmatter.publishDate = none ∧
    (parseFrontmatter c4Content c4ScanEnv.mapping).isSome = true :=
  ⟨scan_c4_eval, by decide, by decide⟩

/-- C4 (amended): an unresolvable publish date is not a parse error and
does not exclude a file: a non-ignored file whose metadata block parses
is always in the scanned collection, whatever its publish-date field
holds (including nothing at all) — only a missing metadata block causes
the per-file parse error and exclusion. -/
theorem scan_membership_ignores_date (env : ScanEnv)
    (files : List (List Char × List Char)) (rel content : List Char)
    (hmem : (rel, content) ∈ files)
    (hig : env.ignores rel = false)
    (hparse : (parseFrontmatter content env.mapping).isSome = true) :
    ∃ p ∈ scanContentDirectory env files,
      p.rel = rel ∧ p.rawContent = content ∧
      some p.frontmatter
        = (parseFrontmatter content env.mapping).map (·.frontmatter) := by
  obtain ⟨r, hr⟩ := Option.isSome_iff_exists.mp hparse
  have hone : scanOne env rel content = some
      { rel := rel
        slug := getSlugFromOptions rel r.rawAssigns
          { slugField := env.slugField
            removeIndexFromSlug := env.removeIndexFromSlug
            stripDatePre := env.stripDatePre }
        frontmatter := r.frontmatter
        content := r.body
        rawContent := content
        rawAssigns := r.rawAssigns } := by
    unfold scanOne
    rw [if_neg (by simp [hig]), hr]
  refine ⟨_, (List.mergeSort_perm _ (scanSortLe env)).mem_iff.mpr
      (List.mem_filterMap.mpr ⟨(rel, content), hmem, hone⟩), rfl, rfl, ?_⟩
  simp [hr]

/-- Witness for C4's amended statement at the concrete dateless file:
it is scanned, with its parsed frontmatter. -/
theorem scan_membership_ignores_date_witness :
    ((['a','.','m','d'], c4Content) ∈ [(['a','.','m','d'], c4Content)] ∧
      c4ScanEnv.ignores ['a','.','m','d'] = false ∧
      (parseFrontmatter c4Content c4ScanEnv.mapping).isSome = true) ∧
    (∃ p ∈ scanContentDirectory c4ScanEnv [(['a','.','m','d'], c4Content)],
      p.rel = ['a','.','m','d'] ∧ p.rawContent = c4Content ∧
      some p.frontmatter
        = (parseFrontmatter c4Content c4ScanEnv.mapping).map
            (·.frontmatter)) :=
  ⟨⟨by decide, by decide, by decide⟩,
   scan_membership_ignores_date c4ScanEnv [(['a','.','m','d'], c4Content)]
     ['a','.','m','d'] c4Content (by decide) (by decide) (by decide)⟩

/-- Witness for C5 at a concrete input: a scanned post parsed
successfully (discharging the scan-membership hypothesis of the third
conjunct). -/
theorem parse_error_only_missing_block_witness :
    c4Post ∈ scanContentDirectory c4ScanEnv [(['a','.','m','d'], c4Content)] ∧
    (parseFrontmatter c4Post.rawContent c4ScanEnv.mapping).isSome = true :=
  ⟨by rw [scan_c4_eval]; exact List.mem_singleton_self c4Post,
   parse_error_only_missing_block.2.2 c4ScanEnv
     [(['a','.','m','d'], c4Content)] c4Post
     (by rw [scan_c4_eval]; exact List.mem_singleton_self c4Post)⟩

/-! ## Lemmas about the sync matching fold -/

theorem postsByPath_mem_aux (pref : String) (posts : List LocalPost)
    (m : String → Option LocalPost) (k : String) (q : LocalPost)
    (h : (posts.foldl
        (fun m p => fun k' => if k' = pref ++ "/" ++ p.slug then some p else m k')
        m) k = some q) :
    q ∈ posts ∨ m k = some q := by
  induction posts generalizing m with
  | nil => exact Or.inr h
  | cons p rest ih =>
    rcases ih _ h with hq | hq
    · exact Or.inl (List.mem_cons_of_mem _ hq)
    · dsimp only at hq
      by_cases hk : k = pref ++ "/" ++ p.slug
      · rw [if_pos hk] at hq
        cases hq
        exact Or.inl (List.mem_cons_self _ _)
      · rw [if_neg hk] at hq
        exact Or.inr hq

/-- Whatever `postsByPath` returns is one of the scanned posts. -/
theorem postsByPath_mem (pref : String) (posts : List LocalPost)
    (k : String) (q : LocalPost) (h : postsByPath pref posts k = some q) :
    q ∈ posts := by
  rcases postsByPath_mem_aux pref posts _ k q h with hq | hq
  · exact hq
  · cases hq

theorem syncStep_ledger_frame (env : SyncEnv)
    (byPath : String → Option LocalPost) (st : SyncState) (d : DocEntry)
    (k : String)
    (h : ∀ q, byPath d.value.docPath = some q → q.rel ≠ k) :
    (syncStep env byPath st d).ledger k = st.ledger k := by
  unfold syncStep
  cases hb : byPath d.value.docPath with
  | none => rfl
  | some q =>
    have hne := h q hb
    dsimp only
    split <;> simp only [setEntry] <;>
      rw [if_neg (fun hk => hne hk.symm)]

/-- A ledger key matched by no processed document is untouched. -/
theorem syncFold_frame (env : SyncEnv) (byPath : String → Option LocalPost)
    (docs : List DocEntry) (st : SyncState) (k : String)
    (h : ∀ d ∈ docs, ∀ q, byPath d.value.docPath = some q → q.rel ≠ k) :
    (docs.foldl (syncStep env byPath) st).ledger k = st.ledger k := by
  induction docs generalizing st with
  | nil => rfl
  | cons d rest ih =>
    rw [List.foldl_cons]
    rw [ih _ (fun d' hd' => h d' (List.mem_cons_of_mem _ hd'))]
    exact syncStep_ledger_frame env byPath st d k
      (h d (List.mem_cons_self _ _))

/-- A ledger key matched by some processed document ends up holding a
`syncEntry` for one of the matching (post, document) pairs. -/
theorem syncFold_match (env : SyncEnv) (byPath : String → Option LocalPost)
    (docs : List DocEntry) (st : SyncState) (k : String)
    (h : ∃ d ∈ docs, ∃ q, byPath d.value.docPath = some q ∧ q.rel = k) :
    ∃ d ∈ docs, ∃ q, byPath d.value.docPath = some q ∧ q.rel = k ∧
      (docs.foldl (syncStep env byPath) st).ledger k
        = some (syncEntry env q d) := by
  induction docs generalizing st with
  | nil =>
    obtain ⟨d, hd, _⟩ := h
    cases hd
  | cons d rest ih =>
    rw [List.foldl_cons]
    by_cases hrest : ∃ d' ∈ rest, ∃ q, byPath d'.value.docPath = some q
        ∧ q.rel = k
    · obtain ⟨d', hd', q', hq', hrel', hled⟩ := ih (syncStep env byPath st d)
        hrest
      exact ⟨d', List.mem_cons_of_mem _ hd', q', hq', hrel', hled⟩
    · obtain ⟨d0, hd0, q0, hq0, hrel0⟩ := h
      have hd0head : d0 = d := by
        rcases List.mem_cons.mp hd0 with rfl | hmem
        · rfl
        · exact absurd ⟨d0, hmem, q0, hq0, hrel0⟩ hrest
      subst hd0head
      have hframe := syncFold_frame env byPath rest (syncStep env byPath st d0)
        k (by
          intro d' hd' q' hq' hrel'
          exact hrest ⟨d', hd', q', hq', hrel'⟩)
      refine ⟨d0, List.mem_cons_self _ _, q0, hq0, hrel0, ?_⟩
      rw [hframe]
      unfold syncStep
      rw [hq0]
      dsimp only
      split <;> simp only [setEntry] <;> rw [if_pos hrel0.symm]

/-- The unmatched counter counts exactly the documents with no local
path match. -/
theorem syncFold_unmatched (env : SyncEnv)
    (byPath : String → Option LocalPost) (docs : List DocEntry)
    (st : SyncState) :
    (docs.foldl (syncStep env byPath) st).unmatched
      = st.unmatched
        + docs.countP (fun d => (byPath d.value.docPath).isNone) := by
  induction docs generalizing st with
  | nil => simp
  | cons d rest ih =>
    rw [List.foldl_cons, ih, List.countP_cons]
    unfold syncStep
    cases hb : byPath d.value.docPath with
    | none =>
      dsimp only
      simp only [hb, Option.isNone_none, if_pos]
      omega
    | some q =>
      dsimp only
      split <;> simp [hb]

theorem syncStep_queue (env : SyncEnv) (byPath : String → Option LocalPost)
    (st : SyncState) (d : DocEntry) (e : String × String)
    (he : e ∈ (syncStep env byPath st d).queue) :
    e ∈ st.queue ∨
      ∃ q, byPath d.value.docPath = some q ∧ e.1 = q.filePath := by
  unfold syncStep at he
  cases hb : byPath d.value.docPath with
  | none => rw [hb] at he; exact Or.inl he
  | some q =>
    rw [hb] at he
    dsimp only at he
    split at he
    · simp only [List.mem_append, List.mem_singleton] at he
      rcases he with he | he
      · exact Or.inl he
      · exact Or.inr ⟨q, rfl, by rw [he]⟩
    · exact Or.inl he

/-- Every queued frontmatter rewrite belongs to a matched local post. -/
theorem syncFold_queue (env : SyncEnv) (byPath : String → Option LocalPost)
    (docs : List DocEntry) (st : SyncState) (e : String × String)
    (he : e ∈ (docs.foldl (syncStep env byPath) st).queue) :
    e ∈ st.queue ∨
      ∃ d ∈ docs, ∃ q, byPath d.value.docPath = some q
        ∧ e.1 = q.filePath := by
  induction docs generalizing st with
  | nil => exact Or.inl he
  | cons d rest ih =>
    rw [List.foldl_cons] at he
    rcases ih _ he with hq | hq
    · rcases syncStep_queue env byPath st d e hq with h1 | ⟨q, hb, hf⟩
      · exact Or.inl h1
      · exact Or.inr ⟨d, List.mem_cons_self _ _, q, hb, hf⟩
    · obtain ⟨d', hd', rest'⟩ := hq
      exact Or.inr ⟨d', List.mem_cons_of_mem _ hd', rest'⟩

/-- C7 (sync is read-only against the remote): a sync run issues only
`listRecords` calls (never a record create/put or blob upload); the only
ledger keys it can change belong to matched local posts, so an
unmatched remote document — one whose path has no local post — is only
counted and reported; and every local file it writes is the state file
or a matched post's file (it never creates or deletes content files,
which the model cannot even express). -/
theorem sync_read_only (env : SyncEnv) (pages : List (List RemoteRecord))
    (localPosts : List LocalPost) (L0 : Ledger) :
    (∀ c ∈ (syncRun env pages localPosts L0).remoteCalls,
      c = RemoteCall.listRecordsCall) ∧
    (∀ k, (syncRun env pages localPosts L0).ledger k ≠ L0 k →
      ∃ p ∈ localPosts, k = p.rel) ∧
    (∀ f ∈ (syncRun env pages localPosts L0).filesWritten,
      f = env.statePath ∨ ∃ p ∈ localPosts, f = p.filePath) ∧
    (syncRun env pages localPosts L0).unmatched
      = (if (listDocuments pages env.pubUri).1.isEmpty then 0 else
          (listDocuments pages env.pubUri).1.countP
            (fun d => (postsByPath (syncPref env) localPosts
                d.value.docPath).isNone)) := by
  refine ⟨?_, ?_, ?_, ?_⟩
  · intro c hc
    have hcalls : (syncRun env pages localPosts L0).remoteCalls
        = pages.map (fun _ => RemoteCall.listRecordsCall) := by
      unfold syncRun
      dsimp only
      split <;> rfl
    rw [hcalls] at hc
    obtain ⟨_, _, rfl⟩ := List.mem_map.mp hc
    rfl
  · intro k hk
    by_contra hno
    push_neg at hno
    apply hk
    unfold syncRun
    dsimp only
    split
    · rfl
    · exact syncFold_frame env (postsByPath (syncPref env) localPosts)
        (listDocuments pages env.pubUri).1 { ledger := L0 } k
        (fun d _ q hq hrel =>
          hno q (postsByPath_mem _ _ _ _ hq) hrel.symm)
  · intro f hf
    unfold syncRun at hf
    dsimp only at hf
    split at hf
    · cases hf
    · split at hf
      · cases hf
      · rcases List.mem_cons.mp hf with rfl | hf'
        · exact Or.inl rfl
        · obtain ⟨e, he, rfl⟩ := List.mem_map.mp hf'
          rcases syncFold_queue env (postsByPath (syncPref env) localPosts)
              (listDocuments pages env.pubUri).1 { ledger := L0 } e he with
            h0 | ⟨d, _, q, hq, hfe⟩
          · cases h0
          · exact Or.inr ⟨q, postsByPath_mem _ _ _ _ hq, hfe⟩
  · unfold syncRun
    dsimp only
    split
    · rfl
    · simpa using syncFold_unmatched env
        (postsByPath (syncPref env) localPosts)
        (listDocuments pages env.pubUri).1 { ledger := L0 }

/-- C10: for every remote document sync matches to a local post, the
resulting ledger entry at that post's key is the whole-record
replacement holding only the content hash, remote identifier and
publish timestamp of one matching (post, document) pair — its
`bskyPostRef` and `slug` are `none`, whatever the previous entry held. -/
theorem sync_match_replaces_entry (env : SyncEnv)
    (pages : List (List RemoteRecord)) (localPosts : List LocalPost)
    (L0 : Ledger) (p : LocalPost)
    (h : ∃ d ∈ (listDocuments pages env.pubUri).1,
      postsByPath (syncPref env) localPosts d.value.docPath = some p) :
    ∃ q ∈ localPosts, ∃ d ∈ (listDocuments pages env.pubUri).1,
      q.rel = p.rel ∧
      postsByPath (syncPref env) localPosts d.value.docPath = some q ∧
      (syncRun env pages localPosts L0).ledger p.rel
        = some { contentHash := env.hash q.rawContent
                 atUri := some d.uri
                 lastPublished := some d.value.publishedAt
                 slug := none
                 bskyPostRef := none } := by
  obtain ⟨d0, hd0, hp0⟩ := h
  have hne : (listDocuments pages env.pubUri).1.isEmpty = false := by
    cases hl : (listDocuments pages env.pubUri).1 with
    | nil => rw [hl] at hd0; cases hd0
    | cons a as => rfl
  obtain ⟨d, hd, q, hq, hrel, hled⟩ := syncFold_match env
    (postsByPath (syncPref env) localPosts)
    (listDocuments pages env.pubUri).1 { ledger := L0 } p.rel
    ⟨d0, hd0, p, hp0, rfl⟩
  refine ⟨q, postsByPath_mem _ _ _ _ hq, d, hd, hrel, hq, ?_⟩
  have hrun : (syncRun env pages localPosts L0).ledger
      = ((listDocuments pages env.pubUri).1.foldl
          (syncStep env (postsByPath (syncPref env) localPosts))
          { ledger := L0 }).ledger := by
    unfold syncRun
    dsimp only
    rw [if_neg (by simp [hne])]
  rw [hrun, hled]
  rfl

/-- The remote page set of the sync witness runs: one page with one
matching document and one unmatched document. -/
def syncWitnessPages : List (List RemoteRecord) :=
  [[{ uri := "at://did:plc:w/site.standard.document/1", cid := "c1"
      value := RecordValue.doc
        { title := "One", site := "at://pub", docPath := "/posts/one"
          textContent := "t", publishedAt := "2024-01-01" } },
    { uri := "at://did:plc:w/site.standard.document/2", cid := "c2"
      value := RecordValue.doc
        { title := "Orphan", site := "at://pub", docPath := "/posts/orphan"
          textContent := "t", publishedAt := "2024-01-02" } }]]

/-- The single local post of the sync witness runs. -/
def syncWitnessPosts : List LocalPost :=
  [{ rel := "one.md", filePath := "/blog/one.md", slug := "one"
     rawContent := "content-one" }]

/-- The environment of the sync witness runs. -/
def syncWitnessEnv : SyncEnv :=
  { hash := fun s => s, pubUri := some "at://pub" }

/-- Witness for C7 at a concrete input: the changed-key hypothesis and
file-written hypothesis are discharged on a run with one matched and
one unmatched document. -/
theorem sync_read_only_witness :
    ((syncRun syncWitnessEnv syncWitnessPages syncWitnessPosts emptyLedger).ledger
        "one.md" ≠ emptyLedger "one.md" ∧
      (∃ p ∈ syncWitnessPosts, "one.md" = p.rel)) ∧
    ((".sequoia-state.json" : String) ∈
        (syncRun syncWitnessEnv syncWitnessPages syncWitnessPosts
          emptyLedger).filesWritten ∧
      (".sequoia-state.json" = syncWitnessEnv.statePath ∨
        ∃ p ∈ syncWitnessPosts, ".sequoia-state.json" = p.filePath)) ∧
    (syncRun syncWitnessEnv syncWitnessPages syncWitnessPosts
        emptyLedger).unmatched = 1 :=
  ⟨⟨by decide,
    (sync_read_only syncWitnessEnv syncWitnessPages syncWitnessPosts
      emptyLedger).2.1 "one.md" (by decide)⟩,
   ⟨by decide,
    (sync_read_only syncWitnessEnv syncWitnessPages syncWitnessPosts
      emptyLedger).2.2.1 ".sequoia-state.json" (by decide)⟩,
   by decide⟩

/-- Witness for C10 at the same concrete input: the matched post's
entry is fully replaced by the three-field record. -/
theorem sync_match_replaces_entry_witness :
    (∃ d ∈ (listDocuments syncWitnessPages syncWitnessEnv.pubUri).1,
      postsByPath (syncPref syncWitnessEnv) syncWitnessPosts
          d.value.docPath
        = some { rel := "one.md", filePath := "/blog/one.md", slug := "one"
                 rawContent := "content-one" }) ∧
    (∃ q ∈ syncWitnessPosts,
      ∃ d ∈ (listDocuments syncWitnessPages syncWitnessEnv.pubUri).1,
      q.rel = "one.md" ∧
      postsByPath (syncPref syncWitnessEnv) syncWitnessPosts
          d.value.docPath = some q ∧
      (syncRun syncWitnessEnv syncWitnessPages syncWitnessPosts
          emptyLedger).ledger "one.md"
        = some { contentHash := syncWitnessEnv.hash q.rawContent
                 atUri := some d.uri
                 lastPublished := some d.value.publishedAt
                 slug := none
                 bskyPostRef := none }) :=
  ⟨by decide,
   sync_match_replaces_entry syncWitnessEnv syncWitnessPages
     syncWitnessPosts emptyLedger
     { rel := "one.md", filePath := "/blog/one.md", slug := "one"
       rawContent := "content-one" } (by decide)⟩

end Sequoia
